import Mathlib

/-!
Verification of the core of the formal-systems toolbox: term algebra,
substitution tables, the syntactic unifier with occurs-check, the
backtracking proof searcher and the derivation pretty printer, as
implemented in `crates/formal-systems-toolbox/src/logic.rs`.

Partial (possibly diverging) source functions are embedded as
fuel-indexed functions returning `Option`; `none` models divergence,
and the fuel bound is the depth of the call tree, so the Rust
computation terminates with result `r` exactly when some fuel yields
`some r`.
-/

/-- The `Judgement` enum: a variable or an operator applied to ordered
subjects. -/
inductive Judgement where
  | Variable : String → Judgement
  | Operator : String → List Judgement → Judgement
deriving Repr

mutual

/-- Decidable structural equality of judgements (`PartialEq` on the enum). -/
def jDecEq : (a b : Judgement) → Decidable (a = b)
  | .Variable x, .Variable y =>
    if h : x = y then .isTrue (by subst h; rfl)
    else .isFalse (fun he => by cases he; exact h rfl)
  | .Variable _, .Operator _ _ => .isFalse (fun he => Judgement.noConfusion he)
  | .Operator _ _, .Variable _ => .isFalse (fun he => Judgement.noConfusion he)
  | .Operator p ss, .Operator q ts =>
    if hp : p = q then
      match jLDecEq ss ts with
      | .isTrue hs => .isTrue (by subst hp; subst hs; rfl)
      | .isFalse hs => .isFalse (fun he => by cases he; exact hs rfl)
    else .isFalse (fun he => by cases he; exact hp rfl)

/-- Decidable structural equality of subject lists. -/
def jLDecEq : (as bs : List Judgement) → Decidable (as = bs)
  | [], [] => .isTrue rfl
  | [], _ :: _ => .isFalse (fun he => List.noConfusion he)
  | _ :: _, [] => .isFalse (fun he => List.noConfusion he)
  | a :: as, b :: bs =>
    match jDecEq a b with
    | .isTrue h1 =>
      match jLDecEq as bs with
      | .isTrue h2 => .isTrue (by subst h1; subst h2; rfl)
      | .isFalse h2 => .isFalse (fun he => by cases he; exact h2 rfl)
    | .isFalse h1 => .isFalse (fun he => by cases he; exact h1 rfl)

end

instance : DecidableEq Judgement := jDecEq

/-- The `UnificationTable`: `HashMap<String, Judgement>` modelled as an
association list with at most one entry per key. -/
abbrev UnificationTable := List (String × Judgement)

/-- `HashMap::get`. -/
def findT : UnificationTable → String → Option Judgement
  | [], _ => none
  | (k, v) :: rest, s => if k = s then some v else findT rest s

/-- `HashMap::insert`: one entry per key, so insertion erases any stale
entry for the same key. -/
def insertT (k : String) (v : Judgement) (θ : UnificationTable) : UnificationTable :=
  (k, v) :: θ.filter (fun p => p.1 ≠ k)

/-- `HashMap::extend`: insert every entry of the second table. -/
def extendT (θ new : UnificationTable) : UnificationTable :=
  new.foldl (fun acc p => insertT p.1 p.2 acc) θ

mutual

/-- `Judgement::apply_substitution`, fuel-indexed: a variable with an
entry in the table is replaced by the (recursively substituted) entry;
operators are rebuilt from substituted subjects. -/
def applyS : Nat → UnificationTable → Judgement → Option Judgement
  | 0, _, _ => none
  | n + 1, θ, .Variable s =>
    match findT θ s with
    | some t => applyS n θ t
    | none => some (.Variable s)
  | n + 1, θ, .Operator p ss => (applyL n θ ss).map (.Operator p)

/-- Substitution over a subject list. -/
def applyL : Nat → UnificationTable → List Judgement → Option (List Judgement)
  | 0, _, _ => none
  | _ + 1, _, [] => some []
  | n + 1, θ, j :: rest =>
    match applyS n θ j with
    | none => none
    | some j' =>
      match applyL n θ rest with
      | none => none
      | some rest' => some (j' :: rest')

end

mutual

/-- `Judgement::variable_occurs_with_substitution`, fuel-indexed: walk
the judgement through the table and report whether the variable occurs
at an unbound position. -/
def occursS : Nat → UnificationTable → String → Judgement → Option Bool
  | 0, _, _, _ => none
  | n + 1, θ, v, .Variable occ =>
    match findT θ occ with
    | some t => occursS n θ v t
    | none => some (occ = v)
  | n + 1, θ, v, .Operator _ ss => occursL n θ v ss

/-- Short-circuiting occurs-check over the subjects of an operator. -/
def occursL : Nat → UnificationTable → String → List Judgement → Option Bool
  | 0, _, _, _ => none
  | _ + 1, _, _, [] => some false
  | n + 1, θ, v, j :: rest =>
    match occursS n θ v j with
    | none => none
    | some true => some true
    | some false => occursL n θ v rest

end

mutual

/-- `Judgement::unify_with_substitution`, fuel-indexed.  The match arms
follow the Rust `match` in order: equal variables, a variable on either
side (the right-hand side takes priority through the or-pattern), and
the operator/operator case. -/
def unifyS : Nat → UnificationTable → Judgement → Judgement →
    Option (Except String UnificationTable)
  | 0, _, _, _ => none
  | n + 1, θ, .Variable x, .Variable y =>
    if x = y then some (.ok θ) else varFlow n θ (.Variable x) y
  | n + 1, θ, .Operator p ss, .Variable y => varFlow n θ (.Operator p ss) y
  | n + 1, θ, .Variable x, .Operator q ts => varFlow n θ (.Operator q ts) x
  | n + 1, θ, .Operator p ss, .Operator q ts =>
    if p ≠ q then
      some (.error ("Different predicates: " ++ p ++ " != " ++ q))
    else if ss.length ≠ ts.length then
      some (.error ("Predicates with different arieties: " ++
        toString ss.length ++ " and " ++ toString ts.length))
    else
      unifyL n θ (ss.zip ts)

/-- The variable arm of `unify_with_substitution`: unify against any
existing entry for `symbol`, occurs-check, then insert. -/
def varFlow : Nat → UnificationTable → Judgement → String →
    Option (Except String UnificationTable)
  | 0, _, _, _ => none
  | n + 1, θ, judgement, symbol =>
    match findT θ symbol with
    | some s =>
      match unifyS n θ judgement s with
      | none => none
      | some (.error e) => some (.error e)
      | some (.ok θ₁) =>
        match occursS n θ₁ symbol judgement with
        | none => none
        | some true => some (.error "Recursive unification!")
        | some false => some (.ok (insertT symbol judgement θ₁))
    | none =>
      match occursS n θ symbol judgement with
      | none => none
      | some true => some (.error "Recursive unification!")
      | some false => some (.ok (insertT symbol judgement θ))

/-- Pairwise unification of zipped subject lists, threading the table
and stopping at the first error. -/
def unifyL : Nat → UnificationTable → List (Judgement × Judgement) →
    Option (Except String UnificationTable)
  | 0, _, _ => none
  | _ + 1, θ, [] => some (.ok θ)
  | n + 1, θ, (a, b) :: rest =>
    match unifyS n θ a b with
    | none => none
    | some (.error e) => some (.error e)
    | some (.ok θ') => unifyL n θ' rest

end

/-- `Judgement::unify`: run the unifier from the empty table. -/
def unifyJ (n : Nat) (a b : Judgement) : Option (Except String UnificationTable) :=
  unifyS n [] a b

/-- `next_name`: scan the characters accumulating a digit-free prefix
and a following digit run; any later non-digit falls back to
`name ++ "1"`; otherwise the digit run is parsed as a `u32` and
incremented with `u32` wrap-around. -/
def nnAux (np1 : String) : List Char → List Char → List Char → Bool → String
  | [], base, number, true =>
    let v := number.foldl (fun a c => a * 10 + (c.toNat - 48)) 0
    if v < 2 ^ 32 then String.mk base ++ toString ((v + 1) % 2 ^ 32)
    else np1
  | [], _, _, false => np1
  | c :: rest, base, number, true =>
    if c.isDigit then nnAux np1 rest base (number ++ [c]) true
    else np1
  | c :: rest, base, number, false =>
    if c.isDigit then nnAux np1 rest base (number ++ [c]) true
    else nnAux np1 rest (base ++ [c]) number false

/-- `next_name` on a string. -/
def nextName (name : String) : String :=
  nnAux (name ++ "1") name.data [] [] false

mutual

/-- The `Display` implementation for judgements: a variable is its
name, an operator is its predicate followed by the parenthesised
comma-separated subjects. -/
def jStr : Judgement → String
  | .Variable s => s
  | .Operator p ss => p ++ "(" ++ jStrL ss ++ ")"

/-- Comma-and-space-separated rendering of subject lists. -/
def jStrL : List Judgement → String
  | [] => ""
  | [j] => jStr j
  | j :: rest => jStr j ++ ", " ++ jStrL rest

end

mutual

/-- `Judgement::get_variables`: the variable names occurring in a
judgement (as a list; only membership is ever consumed). -/
def getVars : Judgement → List String
  | .Variable s => [s]
  | .Operator _ ss => getVarsL ss

/-- Variables of a subject list. -/
def getVarsL : List Judgement → List String
  | [] => []
  | j :: rest => getVars j ++ getVarsL rest

end

mutual

/-- Modelled from the spec: `rename_variables(j, state, f)` (absent from
the sources given, which only contain its callers) traverses `j`
replacing every `Variable(n)` by `Variable(f(state, n))`, threading the
caller-supplied accumulator `state` left to right, and rebuilds
operators from the renamed children. -/
def renameVariables {σ : Type} : Judgement → σ → (σ → String → σ × String) → σ × Judgement
  | .Variable s, st, f =>
    let r := f st s
    (r.1, .Variable r.2)
  | .Operator p ss, st, f =>
    let r := renameVarsL ss st f
    (r.1, .Operator p r.2)

/-- State-threading rename of a subject list, left to right. -/
def renameVarsL {σ : Type} : List Judgement → σ → (σ → String → σ × String) → σ × List Judgement
  | [], st, _ => (st, [])
  | j :: rest, st, f =>
    let r := renameVariables j st f
    let r' := renameVarsL rest r.1 f
    (r'.1, r.2 :: r'.2)

end

/-- The fresh-naming loop of the prover: apply `next_name` until the
name escapes the forbidden set (fuel-indexed, as the loop can cycle
through the `u32` wrap-around). -/
def escapeName : Nat → List String → String → Option String
  | 0, _, _ => none
  | n + 1, vars, s => if s ∈ vars then escapeName n vars (nextName s) else some s

mutual

/-- The fresh renaming of an axiom's judgement inside
`get_possible_derivation_paths`: every variable is renamed through the
`escapeName` loop (the closure passed to `rename_variables` is
stateless). -/
def freshRenameJ : Nat → List String → Judgement → Option Judgement
  | fuel, vars, .Variable s => (escapeName fuel vars s).map .Variable
  | fuel, vars, .Operator p ss => (freshRenameL fuel vars ss).map (.Operator p)

/-- Fresh renaming of a subject list. -/
def freshRenameL : Nat → List String → List Judgement → Option (List Judgement)
  | _, _, [] => some []
  | fuel, vars, j :: rest => do
    let j' ← freshRenameJ fuel vars j
    let rest' ← freshRenameL fuel vars rest
    pure (j' :: rest')

end

/-- The `Rule` struct: a named inference rule. -/
structure Rule where
  name : String
  premises : List Judgement
  conclusion : Judgement
deriving DecidableEq, Repr

/-- `Rule::new`. -/
def Rule.mkRule (name : String) (premises : List Judgement) (conclusion : Judgement) : Rule :=
  ⟨name, premises, conclusion⟩

/-- `Rule::taut`: a rule with no premises. -/
def Rule.taut (name : String) (conclusion : Judgement) : Rule :=
  ⟨name, [], conclusion⟩

/-- Modelled from the spec: `rename_variables` lifted to rules renames
every judgement within; here specialised to the prover's stateless
fresh-renaming closure. -/
def freshRenameRule (fuel : Nat) (vars : List String) (r : Rule) : Option Rule := do
  let ps ← freshRenameL fuel vars r.premises
  let c ← freshRenameJ fuel vars r.conclusion
  pure ⟨r.name, ps, c⟩

/-- The `Derivation` struct: a proof tree node with its premises, its
conclusion and the label of the rule applied. -/
inductive Deriv where
  | node : List Deriv → Judgement → String → Deriv
deriving Repr

/-- The premises of a derivation node. -/
def Deriv.premisesD : Deriv → List Deriv
  | .node ps _ _ => ps

/-- The conclusion of a derivation node. -/
def Deriv.conclusionD : Deriv → Judgement
  | .node _ c _ => c

/-- The rule label of a derivation node. -/
def Deriv.labelD : Deriv → String
  | .node _ _ l => l

mutual

/-- `Derivation::apply_substitution`: map every conclusion in the tree
through the table. -/
def applyD : Nat → UnificationTable → Deriv → Option Deriv
  | fuel, θ, .node ps c l => do
    let ps' ← applyDL fuel θ ps
    let c' ← applyS fuel θ c
    pure (.node ps' c' l)

/-- Substitution over a list of derivations. -/
def applyDL : Nat → UnificationTable → List Deriv → Option (List Deriv)
  | _, _, [] => some []
  | fuel, θ, d :: ds => do
    let d' ← applyD fuel θ d
    let ds' ← applyDL fuel θ ds
    pure (d' :: ds')

end

mutual

/-- Height of a derivation tree (a single node has height 1). -/
def heightD : Deriv → Nat
  | .node ps _ _ => 1 + heightDL ps

/-- Maximum height of a list of derivations. -/
def heightDL : List Deriv → Nat
  | [] => 0
  | d :: ds => max (heightD d) (heightDL ds)

end

/-- All ways of choosing one element of a list together with the
remaining elements, in position order. -/
def selections {α : Type} : List α → List (α × List α)
  | [] => []
  | x :: xs => (x, xs) :: (selections xs).map (fun p => (p.1, x :: p.2))

/-- Auxiliary permutation enumeration with an explicit length budget. -/
def permsAux {α : Type} : Nat → List α → List (List α)
  | 0, _ => [[]]
  | n + 1, l => (selections l).flatMap (fun p => (permsAux n p.2).map (p.1 :: ·))

/-- `itertools::permutations(len)`: all permutations in lexicographic
order of the original positions. -/
def perms {α : Type} (l : List α) : List (List α) :=
  permsAux l.length l

/-- The `FormalSystem` struct: ordered axioms plus a derivation-height
bound. -/
structure FormalSystem where
  axioms : List Rule
  max_derivation_height : Nat
deriving Repr

/-- The forbidden-name set assembled at the top of
`get_possible_derivation_paths`: the goal's variables, every key of the
table, and the variables of every stored value. -/
def collectForbidden (θ : UnificationTable) (goal : Judgement) : List String :=
  getVars goal ++ θ.flatMap (fun p => p.1 :: getVars p.2)

/-- The axiom loop of `get_possible_derivation_paths`: rename each
axiom fresh, attempt unification of the goal against its conclusion on
a copy of the table, and keep the successful `(table, rule)` pairs in
axiom order. -/
def getPathsL (fuel : Nat) (θ : UnificationTable) (goal : Judgement)
    (forb : List String) : List Rule → Option (List (UnificationTable × Rule))
  | [] => some []
  | ax :: rest =>
    match freshRenameRule fuel forb ax with
    | none => none
    | some ax' =>
      match unifyS fuel θ goal ax'.conclusion with
      | none => none
      | some (.error _) => getPathsL fuel θ goal forb rest
      | some (.ok θ') =>
        (getPathsL fuel θ goal forb rest).map (fun r => (θ', ax') :: r)

/-- `FormalSystem::get_possible_derivation_paths`. -/
def getPaths (fuel : Nat) (sys : FormalSystem) (θ : UnificationTable)
    (goal : Judgement) : Option (List (UnificationTable × Rule)) :=
  getPathsL fuel θ goal (collectForbidden θ goal) sys.axioms

/-- The canonical-renaming closure of `verify_recursion`: consult the
accumulated map, otherwise allocate `x1, x2, …` in first-encountered
order. -/
def normStep (st : List (String × String)) (symbol : String) :
    List (String × String) × String :=
  match st.lookup symbol with
  | some n => (st, n)
  | none =>
    let n := "x" ++ toString (st.length + 1)
    (st ++ [(symbol, n)], n)

/-- The normalised key of a goal: apply the substitution, rename the
variables canonically, and serialise. -/
def normalizedKey (fuel : Nat) (θ : UnificationTable) (goal : Judgement) :
    Option String :=
  (applyS fuel θ goal).map (fun j => jStr (renameVariables j [] normStep).2)

/-- `HashSet::insert` on the loop-breaker set. -/
def binInsert (key : String) (bin : List String) : List String :=
  if key ∈ bin then bin else key :: bin

mutual

/-- `FormalSystem::verify_recursion`, fuel-indexed (`fuel` bounds the
unifier subroutines, `rec` the recursion tree): fail when the height
exceeds the bound, fail when the normalised goal key is already in the
loop-breaker set `bin`, otherwise try every candidate path; the key is
added to `bin` only when every alternative has failed. -/
def verifyRec : FormalSystem → Nat → Nat → List String → UnificationTable →
    Judgement → Nat → Option (Option (Deriv × UnificationTable) × List String)
  | sys, _, 0, bin, _, _, height =>
    if sys.max_derivation_height < height then some (none, bin) else none
  | sys, fuel, r + 1, bin, θ, goal, height =>
    if sys.max_derivation_height < height then some (none, bin)
    else
      match normalizedKey fuel θ goal with
      | none => none
      | some key =>
        if key ∈ bin then some (none, bin)
        else
          match getPaths fuel sys θ goal with
          | none => none
          | some paths =>
            match tryPaths sys fuel r bin goal height paths with
            | none => none
            | some (some res, bin') => some (some res, bin')
            | some (none, bin') => some (none, binInsert key bin')
termination_by structural _ _ r _ _ _ _ => r

/-- The candidate loop of `verify_recursion`: try each `(table, rule)`
pair in order, threading the loop-breaker set. -/
def tryPaths : FormalSystem → Nat → Nat → List String → Judgement → Nat →
    List (UnificationTable × Rule) →
    Option (Option (Deriv × UnificationTable) × List String)
  | _, _, 0, _, _, _, _ => none
  | _, _, _ + 1, bin, _, _, [] => some (none, bin)
  | sys, fuel, r + 1, bin, goal, height, (θc, rule) :: rest =>
    match tryPerms sys fuel r bin goal height θc rule (perms rule.premises) with
    | none => none
    | some (some res, bin') => some (some res, bin')
    | some (none, bin') => tryPaths sys fuel r bin' goal height rest
termination_by structural _ _ r _ _ _ _ => r

/-- The permutation loop: for each premise ordering start from a copy
of the candidate table and prove the premises in order. -/
def tryPerms : FormalSystem → Nat → Nat → List String → Judgement → Nat →
    UnificationTable → Rule → List (List Judgement) →
    Option (Option (Deriv × UnificationTable) × List String)
  | _, _, 0, _, _, _, _, _, _ => none
  | _, _, _ + 1, bin, _, _, _, _, [] => some (none, bin)
  | sys, fuel, r + 1, bin, goal, height, θc, rule, perm :: restPerms =>
    match tryPremises sys fuel r bin θc height perm with
    | none => none
    | some (some (proofs, θ'), bin') =>
      some (some (.node proofs goal rule.name, θ'), bin')
    | some (none, bin') =>
      tryPerms sys fuel r bin' goal height θc rule restPerms
termination_by structural _ _ r _ _ _ _ _ _ => r

/-- The premise loop: recursively verify each premise at `height + 1`,
extending the table with the returned bindings; a failed premise
abandons the whole permutation. -/
def tryPremises : FormalSystem → Nat → Nat → List String → UnificationTable →
    Nat → List Judgement →
    Option (Option (List Deriv × UnificationTable) × List String)
  | _, _, 0, _, _, _, _ => none
  | _, _, _ + 1, bin, θ, _, [] => some (some ([], θ), bin)
  | sys, fuel, r + 1, bin, θ, height, p :: ps =>
    match verifyRec sys fuel r bin θ p (height + 1) with
    | none => none
    | some (none, bin') => some (none, bin')
    | some (some (proof, θnew), bin') =>
      match tryPremises sys fuel r bin' (extendT θ θnew) height ps with
      | none => none
      | some (none, bin'') => some (none, bin'')
      | some (some (proofs, θf), bin'') => some (some (proof :: proofs, θf), bin'')
termination_by structural _ _ r _ _ _ _ => r

end

/-- `FormalSystem::verify`: run the search from an empty loop-breaker
set and an empty table, then apply the final substitution to every
conclusion of the returned derivation. -/
def verify (sys : FormalSystem) (fuel r : Nat) (goal : Judgement) :
    Option (Option Deriv) :=
  match verifyRec sys fuel r [] [] goal 0 with
  | none => none
  | some (none, _) => some none
  | some (some (proof, θ), _) => (applyD fuel θ proof).map some

/-- Rust `str::len`: the length of a string in UTF-8 bytes, as opposed
to `String.length`, which counts characters. -/
def byteLen (s : String) : Nat :=
  (s.data.map Char.utf8Size).sum

/-- A run of spaces. -/
def spaces (n : Nat) : String :=
  String.mk (List.replicate n ' ')

/-- Rust's centre formatting `{: ^width$}`: the width is compared
against the character count (`str::chars().count()`); no padding when
the string is at least as wide, otherwise spaces split evenly with the
excess on the right. -/
def padCenter (w : Nat) (s : String) : String :=
  if s.length ≥ w then s
  else
    let pad := w - s.length
    spaces (pad / 2) ++ s ++ spaces (pad - pad / 2)

/-- One premise block's contribution to merged row `i`: the block's line
`i` if it exists, else spaces as wide as the byte length of the block's
first line (the Rust `premise_tree.get(0).unwrap().len()`, with width 0
for an empty block in place of the panic). -/
def rowPiece (i : Nat) (b : List String) : String :=
  match b.get? i with
  | some line => line
  | none => spaces (byteLen (b.headD ""))

mutual

/-- `Derivation::pretty_print`: render the conclusion line and the bar
line, then merge the recursively rendered premise blocks.  Every
`str::len` of the Rust source is a byte length (`byteLen`), while the
centring of `{: ^width$}` counts characters (`padCenter`). -/
def prettyPrint : Deriv → List String
  | .node prems concl label =>
    let blocks := renderPremises prems
    let conclusionString := jStr concl
    let conclusionWidth := byteLen conclusionString
    let paddedWidth := conclusionWidth + byteLen label
    let premisesWidth := (blocks.map (fun b => byteLen (b.headD ""))).sum
    let maxPremHeight := (blocks.map List.length).foldr max 0
    let maxW1 := max premisesWidth paddedWidth
    let barW := max maxW1 (conclusionWidth + 2)
    let maxW := max maxW1 (barW + byteLen label)
    let line1 := spaces (byteLen label) ++ padCenter (maxW - byteLen label) conclusionString
    let line2 := label ++ padCenter (maxW - byteLen label) (String.mk (List.replicate barW '-'))
    let merged := (List.range maxPremHeight).map (fun i =>
      padCenter maxW (String.join (blocks.map (rowPiece i))))
    line1 :: line2 :: merged

/-- Render each premise block, appending the two-space separator to
every line of every premise except the last. -/
def renderPremises : List Deriv → List (List String)
  | [] => []
  | [d] => [prettyPrint d]
  | d :: rest => ((prettyPrint d).map (· ++ "  ")) :: renderPremises rest

end

/-- `Derivation::to_string_tree`: reverse the block so premises sit on
top, join with newlines after a leading newline. -/
def toStringTree (d : Deriv) : String :=
  "\n" ++ String.join ((prettyPrint d).reverse.map (· ++ "\n"))

/-! ### Fuel monotonicity -/

theorem applyMono : ∀ n,
    (∀ θ j r, applyS n θ j = some r → applyS (n + 1) θ j = some r) ∧
    (∀ θ js rs, applyL n θ js = some rs → applyL (n + 1) θ js = some rs) := by
  intro n
  induction n with
  | zero => exact ⟨fun θ j r h => by simp [applyS] at h, fun θ js rs h => by simp [applyL] at h⟩
  | succ n ih =>
    constructor
    · intro θ j r h
      match j with
      | .Variable s =>
        simp only [applyS] at h ⊢
        cases hf : findT θ s with
        | some t => rw [hf] at h; exact ih.1 θ t r h
        | none => rw [hf] at h; exact h
      | .Operator p ss =>
        simp only [applyS] at h ⊢
        cases hl : applyL n θ ss with
        | some rs => rw [ih.2 θ ss rs hl]; rw [hl] at h; exact h
        | none => rw [hl] at h; simp at h
    · intro θ js rs h
      match js with
      | [] => simpa [applyL] using h
      | j :: rest =>
        simp only [applyL] at h ⊢
        cases hj : applyS n θ j with
        | none => rw [hj] at h; simp at h
        | some j' =>
          rw [hj] at h
          rw [ih.1 θ j j' hj]
          cases hr : applyL n θ rest with
          | none => rw [hr] at h; simp at h
          | some rest' => rw [hr] at h; rw [ih.2 θ rest rest' hr]; exact h

theorem applyS_mono {n m : Nat} (h : n ≤ m) {θ j r} (hs : applyS n θ j = some r) :
    applyS m θ j = some r := by
  induction m with
  | zero => cases Nat.le_zero.mp h; exact hs
  | succ m ih =>
    rcases Nat.lt_or_ge n (m + 1) with hlt | hge
    · exact (applyMono m).1 θ j r (ih (Nat.lt_succ_iff.mp hlt))
    · cases Nat.le_antisymm h hge; exact hs

theorem applyL_mono {n m : Nat} (h : n ≤ m) {θ js rs} (hs : applyL n θ js = some rs) :
    applyL m θ js = some rs := by
  induction m with
  | zero => cases Nat.le_zero.mp h; exact hs
  | succ m ih =>
    rcases Nat.lt_or_ge n (m + 1) with hlt | hge
    · exact (applyMono m).2 θ js rs (ih (Nat.lt_succ_iff.mp hlt))
    · cases Nat.le_antisymm h hge; exact hs

theorem occursMono : ∀ n,
    (∀ θ v j b, occursS n θ v j = some b → occursS (n + 1) θ v j = some b) ∧
    (∀ θ v js b, occursL n θ v js = some b → occursL (n + 1) θ v js = some b) := by
  intro n
  induction n with
  | zero =>
    exact ⟨fun θ v j b h => by simp [occursS] at h, fun θ v js b h => by simp [occursL] at h⟩
  | succ n ih =>
    constructor
    · intro θ v j b h
      match j with
      | .Variable occ =>
        simp only [occursS] at h ⊢
        cases hf : findT θ occ with
        | some t => rw [hf] at h; exact ih.1 θ v t b h
        | none => rw [hf] at h; exact h
      | .Operator p ss =>
        simp only [occursS] at h ⊢
        exact ih.2 θ v ss b h
    · intro θ v js b h
      match js with
      | [] => simpa [occursL] using h
      | j :: rest =>
        simp only [occursL] at h ⊢
        cases hj : occursS n θ v j with
        | none => rw [hj] at h; simp at h
        | some bj =>
          rw [hj] at h
          rw [ih.1 θ v j bj hj]
          cases bj with
          | true => exact h
          | false => exact ih.2 θ v rest b h

theorem occursS_mono {n m : Nat} (h : n ≤ m) {θ v j b} (hs : occursS n θ v j = some b) :
    occursS m θ v j = some b := by
  induction m with
  | zero => cases Nat.le_zero.mp h; exact hs
  | succ m ih =>
    rcases Nat.lt_or_ge n (m + 1) with hlt | hge
    · exact (occursMono m).1 θ v j b (ih (Nat.lt_succ_iff.mp hlt))
    · cases Nat.le_antisymm h hge; exact hs

theorem occursL_mono {n m : Nat} (h : n ≤ m) {θ v js b} (hs : occursL n θ v js = some b) :
    occursL m θ v js = some b := by
  induction m with
  | zero => cases Nat.le_zero.mp h; exact hs
  | succ m ih =>
    rcases Nat.lt_or_ge n (m + 1) with hlt | hge
    · exact (occursMono m).2 θ v js b (ih (Nat.lt_succ_iff.mp hlt))
    · cases Nat.le_antisymm h hge; exact hs

theorem unifyMono : ∀ n,
    (∀ θ a b r, unifyS n θ a b = some r → unifyS (n + 1) θ a b = some r) ∧
    (∀ θ j s r, varFlow n θ j s = some r → varFlow (n + 1) θ j s = some r) ∧
    (∀ θ ps r, unifyL n θ ps = some r → unifyL (n + 1) θ ps = some r) := by
  intro n
  induction n with
  | zero =>
    refine ⟨fun θ a b r h => by simp [unifyS] at h,
      fun θ j s r h => by simp [varFlow] at h,
      fun θ ps r h => by simp [unifyL] at h⟩
  | succ n ih =>
    refine ⟨?_, ?_, ?_⟩
    · intro θ a b r h
      match a, b with
      | .Variable x, .Variable y =>
        simp only [unifyS] at h ⊢
        by_cases hxy : x = y
        · simpa [hxy] using h
        · rw [if_neg hxy] at h ⊢; exact ih.2.1 θ (.Variable x) y r h
      | .Operator p ss, .Variable y =>
        simp only [unifyS] at h ⊢
        exact ih.2.1 θ (.Operator p ss) y r h
      | .Variable x, .Operator q ts =>
        simp only [unifyS] at h ⊢
        exact ih.2.1 θ (.Operator q ts) x r h
      | .Operator p ss, .Operator q ts =>
        simp only [unifyS] at h ⊢
        by_cases hpq : p ≠ q
        · simpa [hpq] using h
        · rw [if_neg hpq] at h ⊢
          by_cases hlen : ss.length ≠ ts.length
          · simpa [hlen] using h
          · rw [if_neg hlen] at h ⊢; exact ih.2.2 θ (ss.zip ts) r h
    · intro θ j s r h
      simp only [varFlow] at h
      simp only [varFlow]
      cases hf : findT θ s with
      | some t =>
        simp only [hf] at h ⊢
        cases hu : unifyS n θ j t with
        | none => simp [hu] at h
        | some ru =>
          have hu' : unifyS (n + 1) θ j t = some ru := ih.1 θ j t ru hu
          simp only [hu] at h
          simp only [hu']
          cases ru with
          | error e => exact h
          | ok θ₁ =>
            cases ho : occursS n θ₁ s j with
            | none => simp [ho] at h
            | some ob =>
              have ho' : occursS (n + 1) θ₁ s j = some ob :=
                occursS_mono (Nat.le_succ n) ho
              simp only [ho] at h
              simp only [ho']
              exact h
      | none =>
        simp only [hf] at h ⊢
        cases ho : occursS n θ s j with
        | none => simp [ho] at h
        | some ob =>
          have ho' : occursS (n + 1) θ s j = some ob :=
            occursS_mono (Nat.le_succ n) ho
          simp only [ho] at h
          simp only [ho']
          exact h
    · intro θ ps r h
      match ps with
      | [] => simpa [unifyL] using h
      | (a, b) :: rest =>
        simp only [unifyL] at h ⊢
        cases hu : unifyS n θ a b with
        | none => rw [hu] at h; simp at h
        | some ru =>
          rw [hu] at h
          rw [ih.1 θ a b ru hu]
          cases ru with
          | error e => exact h
          | ok θ' => exact ih.2.2 θ' rest r h

theorem unifyS_mono {n m : Nat} (h : n ≤ m) {θ a b r} (hs : unifyS n θ a b = some r) :
    unifyS m θ a b = some r := by
  induction m with
  | zero => cases Nat.le_zero.mp h; exact hs
  | succ m ih =>
    rcases Nat.lt_or_ge n (m + 1) with hlt | hge
    · exact (unifyMono m).1 θ a b r (ih (Nat.lt_succ_iff.mp hlt))
    · cases Nat.le_antisymm h hge; exact hs

/-! ### `next_name` (C6) -/

/-- Numeric value of a digit string, as `u32::from_str_radix` computes
it before its overflow check. -/
def digitsVal (cs : List Char) : Nat :=
  cs.foldl (fun a c => a * 10 + (c.toNat - 48)) 0

/-- The claim's description of `next_name`, taken literally: when the
name splits into a digit-free prefix and a nonempty all-digit suffix,
the suffix is incremented as an unbounded integer. -/
def nextNameSpec (n : String) : String :=
  let base := n.data.takeWhile (fun c => !c.isDigit)
  let suf := n.data.dropWhile (fun c => !c.isDigit)
  if suf ≠ [] ∧ suf.all Char.isDigit then
    String.mk base ++ toString (digitsVal suf + 1)
  else n ++ "1"

/-- The behaviour `next_name` actually implements: the suffix must
also fit in a `u32` and its successor is taken modulo `2 ^ 32`. -/
def nextNameU32 (n : String) : String :=
  let base := n.data.takeWhile (fun c => !c.isDigit)
  let suf := n.data.dropWhile (fun c => !c.isDigit)
  if suf ≠ [] ∧ suf.all Char.isDigit ∧ digitsVal suf < 2 ^ 32 then
    String.mk base ++ toString ((digitsVal suf + 1) % 2 ^ 32)
  else n ++ "1"

theorem nnAux_found (np1 : String) : ∀ cs base number,
    nnAux np1 cs base number true =
      if cs.all Char.isDigit ∧ digitsVal (number ++ cs) < 2 ^ 32 then
        String.mk base ++ toString ((digitsVal (number ++ cs) + 1) % 2 ^ 32)
      else np1 := by
  intro cs
  induction cs with
  | nil =>
    intro base number
    simp [nnAux, digitsVal]
  | cons c rest ih =>
    intro base number
    simp only [nnAux]
    by_cases hc : c.isDigit
    · rw [if_pos hc, ih base (number ++ [c])]
      have he : number ++ [c] ++ rest = number ++ (c :: rest) := by simp
      rw [he]
      simp [List.all_cons, hc]
    · rw [if_neg hc]
      simp [List.all_cons, hc]

theorem nnAux_scan (np1 : String) : ∀ cs base,
    nnAux np1 cs base [] false =
      (let suf := cs.dropWhile (fun c => !c.isDigit)
       if suf ≠ [] ∧ suf.all Char.isDigit ∧ digitsVal suf < 2 ^ 32 then
         String.mk (base ++ cs.takeWhile (fun c => !c.isDigit)) ++
           toString ((digitsVal suf + 1) % 2 ^ 32)
       else np1) := by
  intro cs
  induction cs with
  | nil => intro base; simp [nnAux]
  | cons c rest ih =>
    intro base
    simp only [nnAux]
    by_cases hc : c.isDigit
    · rw [if_pos hc]
      rw [nnAux_found np1 rest base ([] ++ [c])]
      have hdw : (c :: rest).dropWhile (fun c => !c.isDigit) = c :: rest := by
        rw [List.dropWhile_cons_of_neg]; simp [hc]
      have htw : (c :: rest).takeWhile (fun c => !c.isDigit) = [] := by
        rw [List.takeWhile_cons_of_neg]; simp [hc]
      rw [hdw, htw]
      have he : ([] ++ [c] : List Char) ++ rest = c :: rest := by simp
      rw [he]
      simp [List.all_cons, hc]
    · rw [if_neg hc]
      rw [ih (base ++ [c])]
      have hdw : (c :: rest).dropWhile (fun c => !c.isDigit) =
          rest.dropWhile (fun c => !c.isDigit) := by
        rw [List.dropWhile_cons_of_pos]; simp [hc]
      have htw : (c :: rest).takeWhile (fun c => !c.isDigit) =
          c :: rest.takeWhile (fun c => !c.isDigit) := by
        rw [List.takeWhile_cons_of_pos]; simp [hc]
      rw [hdw, htw]
      simp

/-- C6 (amended): `next_name` splits off the maximal digit-free prefix
and the following digit run; when the digit run spans the rest of the
name, is nonempty and fits in a `u32`, it is incremented modulo
`2 ^ 32`, and in every other case the result is `name ++ "1"`. -/
theorem nextName_characterization (n : String) : nextName n = nextNameU32 n := by
  unfold nextName nextNameU32
  rw [nnAux_scan (n ++ "1") n.data []]
  simp

/-- C6 counterexample: at `"4294967295"` (`u32::MAX`) the code wraps
to `"0"`, while the claim's split-and-increment description demands
`"4294967296"`. -/
theorem nextName_overflow_cex :
    nextName "4294967295" = "0" ∧ nextNameSpec "4294967295" = "4294967296" ∧
      nextName "4294967295" ≠ nextNameSpec "4294967295" := by
  refine ⟨by decide, by decide, by decide⟩

/-! ### Occurs-check on the empty table (C2) -/

mutual

/-- Size of a judgement (number of nodes). -/
def sizeJ : Judgement → Nat
  | .Variable _ => 1
  | .Operator _ ss => 1 + sizeJL ss

/-- Total size of a subject list. -/
def sizeJL : List Judgement → Nat
  | [] => 0
  | j :: rest => sizeJ j + sizeJL rest

end

theorem sizeJ_pos : ∀ j : Judgement, 1 ≤ sizeJ j := by
  intro j
  cases j with
  | Variable s => simp [sizeJ]
  | Operator p ss => simp [sizeJ]

theorem occurs_empty : ∀ n,
    (∀ t x, 2 * sizeJ t ≤ n → occursS n [] x t = some (decide (x ∈ getVars t))) ∧
    (∀ ts x, 2 * sizeJL ts + 1 ≤ n →
      occursL n [] x ts = some (decide (x ∈ getVarsL ts))) := by
  intro n
  induction n with
  | zero =>
    constructor
    · intro t x h
      exfalso
      have := sizeJ_pos t
      omega
    · intro ts x h
      exfalso
      omega
  | succ n ih =>
    constructor
    · intro t x h
      cases t with
      | Variable s =>
        simp [occursS, findT, getVars]
        by_cases hs : s = x
        · simp [hs]
        · simp only [hs, decide_eq_false, Bool.false_eq_true]
          exact ⟨fun hf => hf.elim, fun hxs => hs hxs.symm⟩
      | Operator p ss =>
        simp only [occursS, getVars]
        refine ih.2 ss x ?_
        simp only [sizeJ] at h
        omega
    · intro ts x h
      cases ts with
      | nil => simp [occursL, getVarsL]
      | cons j rest =>
        simp only [sizeJL] at h
        have hpos := sizeJ_pos j
        have hj : 2 * sizeJ j ≤ n := by omega
        have hr : 2 * sizeJL rest + 1 ≤ n := by omega
        simp only [occursL]
        rw [ih.1 j x hj]
        by_cases hx : x ∈ getVars j
        · simp [hx, getVarsL, List.mem_append]
        · simp only [hx, decide_eq_false, Bool.false_eq_true]
          rw [ih.2 rest x hr]
          simp [getVarsL, List.mem_append, hx]

/-- C2: when `t` properly contains `Variable x`, unification of
`Variable x` against `t` fails with the occurs error in both argument
orders. -/
theorem unify_occurs_check (x : String) (t : Judgement) (n : Nat)
    (hmem : x ∈ getVars t) (hne : t ≠ .Variable x) (hn : 2 * sizeJ t + 2 ≤ n) :
    unifyJ n (.Variable x) t = some (.error "Recursive unification!") ∧
      unifyJ n t (.Variable x) = some (.error "Recursive unification!") := by
  obtain ⟨q, ts, rfl⟩ : ∃ q ts, t = .Operator q ts := by
    cases t with
    | Variable s =>
      exfalso
      simp [getVars] at hmem
      exact hne (by rw [hmem])
    | Operator q ts => exact ⟨q, ts, rfl⟩
  obtain ⟨k, rfl⟩ : ∃ k, n = k + 1 + 1 := ⟨n - 2, by omega⟩
  have hocc : occursS k [] x (.Operator q ts) = some true := by
    rw [(occurs_empty k).1 (.Operator q ts) x (by omega)]
    simp [hmem]
  constructor
  · show unifyS (k + 1 + 1) [] (.Variable x) (.Operator q ts) = _
    simp only [unifyS, varFlow, findT]
    rw [hocc]
  · show unifyS (k + 1 + 1) [] (.Operator q ts) (.Variable x) = _
    simp only [unifyS, varFlow, findT]
    rw [hocc]

/-- C2 witness: the spec's concrete instance
`unify(var("n"), op("succ", var("n")))`. -/
theorem unify_occurs_check_witness :
    unifyJ 10 (.Variable "n") (.Operator "succ" [.Variable "n"]) =
        some (.error "Recursive unification!") ∧
      unifyJ 10 (.Operator "succ" [.Variable "n"]) (.Variable "n") =
        some (.error "Recursive unification!") :=
  unify_occurs_check "n" (.Operator "succ" [.Variable "n"]) 10
    (by decide) (by decide) (by decide)

/-! ### Idempotence of substitution application (C5) -/

theorem applyIdem : ∀ n,
    (∀ θ j r, applyS n θ j = some r → ∃ m, applyS m θ r = some r) ∧
    (∀ θ js rs, applyL n θ js = some rs → ∃ m, applyL m θ rs = some rs) := by
  intro n
  induction n with
  | zero =>
    exact ⟨fun θ j r h => by simp [applyS] at h, fun θ js rs h => by simp [applyL] at h⟩
  | succ n ih =>
    constructor
    · intro θ j r h
      match j with
      | .Variable s =>
        simp only [applyS] at h
        cases hf : findT θ s with
        | some t => rw [hf] at h; exact ih.1 θ t r h
        | none =>
          rw [hf] at h
          refine ⟨1, ?_⟩
          have : r = .Variable s := by simpa using h.symm
          subst this
          simp [applyS, hf]
      | .Operator p ss =>
        simp only [applyS] at h
        cases hl : applyL n θ ss with
        | none => rw [hl] at h; simp at h
        | some rs =>
          rw [hl] at h
          obtain ⟨m, hm⟩ := ih.2 θ ss rs hl
          refine ⟨m + 1, ?_⟩
          have : r = .Operator p rs := by simpa using h.symm
          subst this
          simp [applyS, hm]
    · intro θ js rs h
      match js with
      | [] =>
        have : rs = [] := by simpa [applyL] using h.symm
        subst this
        exact ⟨1, by simp [applyL]⟩
      | j :: rest =>
        simp only [applyL] at h
        cases hj : applyS n θ j with
        | none => rw [hj] at h; simp at h
        | some j' =>
          rw [hj] at h
          cases hr : applyL n θ rest with
          | none => rw [hr] at h; simp at h
          | some rest' =>
            rw [hr] at h
            have : rs = j' :: rest' := by simpa using h.symm
            subst this
            obtain ⟨m₁, hm₁⟩ := ih.1 θ j j' hj
            obtain ⟨m₂, hm₂⟩ := ih.2 θ rest rest' hr
            refine ⟨max m₁ m₂ + 1, ?_⟩
            simp only [applyL]
            rw [applyS_mono (Nat.le_max_left m₁ m₂) hm₁,
              applyL_mono (Nat.le_max_right m₁ m₂) hm₂]

/-- C5: applying a substitution table a second time to an already
substituted judgement leaves it unchanged:
`apply(apply(j, θ), θ) == apply(j, θ)`. -/
theorem apply_substitution_idempotent (n : Nat) (θ : UnificationTable)
    (j r : Judgement) (h : applyS n θ j = some r) : ∃ m, applyS m θ r = some r :=
  (applyIdem n).1 θ j r h

/-- C5 witness at a concrete table and judgement. -/
theorem apply_substitution_idempotent_witness :
    applyS 10 [("x", Judgement.Operator "succ" [Judgement.Variable "y"])]
        (Judgement.Operator "f" [Judgement.Variable "x", Judgement.Variable "z"]) =
      some (Judgement.Operator "f"
        [Judgement.Operator "succ" [Judgement.Variable "y"], Judgement.Variable "z"]) ∧
    ∃ m, applyS m [("x", Judgement.Operator "succ" [Judgement.Variable "y"])]
        (Judgement.Operator "f"
          [Judgement.Operator "succ" [Judgement.Variable "y"], Judgement.Variable "z"]) =
      some (Judgement.Operator "f"
        [Judgement.Operator "succ" [Judgement.Variable "y"], Judgement.Variable "z"]) :=
  ⟨rfl,
    apply_substitution_idempotent 10
      [("x", Judgement.Operator "succ" [Judgement.Variable "y"])]
      (Judgement.Operator "f" [Judgement.Variable "x", Judgement.Variable "z"])
      (Judgement.Operator "f"
        [Judgement.Operator "succ" [Judgement.Variable "y"], Judgement.Variable "z"])
      rfl⟩

/-! ### Non-injective fresh renaming (C10) -/

/-- C10: the prover's fresh-renaming step is not injective on a rule's
variables: against a goal containing `x` but not `x1`, the axiom
variable `x` escapes the forbidden set to `x1` while the axiom's own
variable `x1` is left unchanged, so two distinct variables of the
axiom collapse to the same name. -/
theorem fresh_renaming_not_injective :
    escapeName 10 ["x"] "x" = some "x1" ∧
    escapeName 10 ["x"] "x1" = some "x1" ∧
    collectForbidden [] (Judgement.Operator "p" [Judgement.Variable "x"]) = ["x"] ∧
    freshRenameRule 10
        (collectForbidden [] (Judgement.Operator "p" [Judgement.Variable "x"]))
        ⟨"r", [], Judgement.Operator "q"
          [Judgement.Variable "x", Judgement.Variable "x1"]⟩ =
      some ⟨"r", [], Judgement.Operator "q"
        [Judgement.Variable "x1", Judgement.Variable "x1"]⟩ ∧
    "x" ≠ "x1" :=
  ⟨rfl, rfl, rfl, rfl, by decide⟩

/-! ### Determinism of `verify` (C8) -/

/-- C8: `verify` is a pure function of the axiom sequence, the height
bound and the goal — two systems with identical axioms and bound give
structurally identical results on every goal, so repeated runs on
identical inputs agree. -/
theorem verify_deterministic (s1 s2 : FormalSystem) (fuel r : Nat)
    (goal : Judgement) (hax : s1.axioms = s2.axioms)
    (hmax : s1.max_derivation_height = s2.max_derivation_height) :
    verify s1 fuel r goal = verify s2 fuel r goal := by
  cases s1
  cases s2
  simp only at hax hmax
  subst hax
  subst hmax
  rfl

/-- C8 witness: two separately written but identical systems. -/
theorem verify_deterministic_witness :
    verify ⟨[Rule.taut "a" (.Operator "p" [])], 3⟩ 20 10 (.Operator "p" []) =
      verify ⟨[Rule.taut "a" (.Operator "p" [])], 3⟩ 20 10 (.Operator "p" []) :=
  verify_deterministic ⟨[Rule.taut "a" (.Operator "p" [])], 3⟩
    ⟨[Rule.taut "a" (.Operator "p" [])], 3⟩ 20 10 (.Operator "p" []) rfl rfl

/-! ### Depth bound (C4) -/

theorem heightDL_le {ds : List Deriv} {B : Nat}
    (h : ∀ d ∈ ds, heightD d ≤ B) : heightDL ds ≤ B := by
  induction ds with
  | nil => simp [heightDL]
  | cons d rest ih =>
    simp only [heightDL]
    exact max_le (h d (by simp)) (ih fun d' hd' => h d' (by simp [hd']))


/-- Applying a substitution to a derivation preserves its height. -/
theorem applyD_height : ∀ d : Deriv, ∀ fuel θ d',
    applyD fuel θ d = some d' → heightD d' = heightD d := by
  intro d
  induction d using Deriv.rec
    (motive_2 := fun ds => ∀ fuel θ ds', applyDL fuel θ ds = some ds' →
      heightDL ds' = heightDL ds) with
  | node ps c l ihps =>
    intro fuel θ d' h
    simp only [applyD, bind, Option.bind] at h
    cases hps : applyDL fuel θ ps with
    | none => rw [hps] at h; simp at h
    | some ps' =>
      rw [hps] at h
      cases hc : applyS fuel θ c with
      | none => rw [hc] at h; simp at h
      | some c' =>
        rw [hc] at h
        simp only [pure, Option.some.injEq] at h
        subst h
        simp only [heightD]
        rw [ihps fuel θ ps' hps]
  | nil =>
    rename_i fuel θ ds' h
    simp only [applyDL, Option.some.injEq] at h
    simp [← h, heightDL]
  | cons d rest ihd ihrest =>
    rename_i fuel θ ds' h
    simp only [applyDL, bind, Option.bind] at h
    cases hd : applyD fuel θ d with
    | none => rw [hd] at h; simp at h
    | some d1 =>
      rw [hd] at h
      cases hrest : applyDL fuel θ rest with
      | none => rw [hrest] at h; simp at h
      | some rest1 =>
        rw [hrest] at h
        simp only [pure, Option.some.injEq] at h
        subst h
        simp only [heightDL]
        rw [ihd fuel θ d1 hd, ihrest fuel θ rest1 hrest]

/-- Height bound for the four mutually recursive search functions, by
induction on the recursion fuel: a successful search at height h yields a
derivation of height at most max_derivation_height + 1 - h. -/
theorem searchHeightBound : ∀ r,
    (∀ (sys : FormalSystem) fuel bin θ goal h d θ' bin',
      verifyRec sys fuel r bin θ goal h = some (some (d, θ'), bin') →
      heightD d + h ≤ sys.max_derivation_height + 1) ∧
    (∀ (sys : FormalSystem) fuel bin goal h paths d θ' bin',
      h ≤ sys.max_derivation_height →
      tryPaths sys fuel r bin goal h paths = some (some (d, θ'), bin') →
      heightD d + h ≤ sys.max_derivation_height + 1) ∧
    (∀ (sys : FormalSystem) fuel bin goal h θc rule pl d θ' bin',
      h ≤ sys.max_derivation_height →
      tryPerms sys fuel r bin goal h θc rule pl = some (some (d, θ'), bin') →
      heightD d + h ≤ sys.max_derivation_height + 1) ∧
    (∀ (sys : FormalSystem) fuel bin θ h ps ds θ' bin',
      tryPremises sys fuel r bin θ h ps = some (some (ds, θ'), bin') →
      ∀ d ∈ ds, heightD d + (h + 1) ≤ sys.max_derivation_height + 1) := by
  intro r
  induction r with
  | zero =>
    refine ⟨?_, ?_, ?_, ?_⟩
    · intro sys fuel bin θ goal h d θ' bin' hv
      simp only [verifyRec] at hv
      by_cases hh : sys.max_derivation_height < h
      · simp [hh] at hv
      · simp [hh] at hv
    · intro sys fuel bin goal h paths d θ' bin' _ hv
      simp [tryPaths] at hv
    · intro sys fuel bin goal h θc rule pl d θ' bin' _ hv
      simp [tryPerms] at hv
    · intro sys fuel bin θ h ps ds θ' bin' hv
      simp [tryPremises] at hv
  | succ r ih =>
    obtain ⟨ihV, ihP, ihM, ihR⟩ := ih
    refine ⟨?_, ?_, ?_, ?_⟩
    · intro sys fuel bin θ goal h d θ' bin' hv
      simp only [verifyRec] at hv
      by_cases hh : sys.max_derivation_height < h
      · simp [hh] at hv
      · rw [if_neg hh] at hv
        cases hk : normalizedKey fuel θ goal with
        | none => simp only [hk] at hv; simp at hv
        | some key =>
          simp only [hk] at hv
          by_cases hb : key ∈ bin
          · simp [hb] at hv
          · rw [if_neg hb] at hv
            cases hp : getPaths fuel sys θ goal with
            | none => simp only [hp] at hv; simp at hv
            | some paths =>
              simp only [hp] at hv
              cases ht : tryPaths sys fuel r bin goal h paths with
              | none => simp only [ht] at hv; simp at hv
              | some res =>
                obtain ⟨ores, bin₁⟩ := res
                cases ores with
                | none => simp only [ht] at hv; simp at hv
                | some res' =>
                  simp only [ht, Option.some.injEq, Prod.mk.injEq] at hv
                  obtain ⟨h1, h2⟩ := hv
                  rw [h1] at ht
                  exact ihP sys fuel bin goal h paths d θ' bin₁ (by omega) ht
    · intro sys fuel bin goal h paths d θ' bin' hle hv
      match paths with
      | [] => simp [tryPaths] at hv
      | (θc, rule) :: rest =>
        simp only [tryPaths] at hv
        cases ht : tryPerms sys fuel r bin goal h θc rule (perms rule.premises) with
        | none => simp only [ht] at hv; simp at hv
        | some res =>
          obtain ⟨ores, bin₁⟩ := res
          cases ores with
          | none =>
            simp only [ht] at hv
            exact ihP sys fuel bin₁ goal h rest d θ' bin' hle hv
          | some res' =>
            simp only [ht, Option.some.injEq, Prod.mk.injEq] at hv
            obtain ⟨h1, h2⟩ := hv
            rw [h1] at ht
            exact ihM sys fuel bin goal h θc rule (perms rule.premises) d θ' bin₁
              hle ht
    · intro sys fuel bin goal h θc rule pl d θ' bin' hle hv
      match pl with
      | [] => simp [tryPerms] at hv
      | perm :: restPerms =>
        simp only [tryPerms] at hv
        cases ht : tryPremises sys fuel r bin θc h perm with
        | none => simp only [ht] at hv; simp at hv
        | some res =>
          obtain ⟨ores, bin₁⟩ := res
          cases ores with
          | none =>
            simp only [ht] at hv
            exact ihM sys fuel bin₁ goal h θc rule restPerms d θ' bin' hle hv
          | some res' =>
            obtain ⟨proofs, θp⟩ := res'
            simp only [ht, Option.some.injEq, Prod.mk.injEq] at hv
            obtain ⟨⟨h1, h2⟩, h3⟩ := hv
            have hall := ihR sys fuel bin θc h perm proofs θp bin₁ ht
            rw [← h1]
            simp only [heightD]
            have hDL : heightDL proofs ≤ sys.max_derivation_height - h :=
              heightDL_le fun d' hd' => by have := hall d' hd'; omega
            omega
    · intro sys fuel bin θ h ps ds θ' bin' hv
      match ps with
      | [] =>
        simp only [tryPremises, Option.some.injEq, Prod.mk.injEq] at hv
        obtain ⟨⟨h1, h2⟩, h3⟩ := hv
        subst h1
        intro d hd
        simp at hd
      | p :: prest =>
        simp only [tryPremises] at hv
        cases hV : verifyRec sys fuel r bin θ p (h + 1) with
        | none => simp only [hV] at hv; simp at hv
        | some res =>
          obtain ⟨ores, bin₁⟩ := res
          cases ores with
          | none => simp only [hV] at hv; simp at hv
          | some res' =>
            obtain ⟨proof, θnew⟩ := res'
            simp only [hV] at hv
            cases ht : tryPremises sys fuel r bin₁ (extendT θ θnew) h prest with
            | none => simp only [ht] at hv; simp at hv
            | some res2 =>
              obtain ⟨ores2, bin₂⟩ := res2
              cases ores2 with
              | none => simp only [ht] at hv; simp at hv
              | some res2' =>
                obtain ⟨proofs, θf⟩ := res2'
                simp only [ht, Option.some.injEq, Prod.mk.injEq] at hv
                obtain ⟨⟨h1, h2⟩, h3⟩ := hv
                subst h1
                intro d hd
                simp only [List.mem_cons] at hd
                cases hd with
                | inl hd =>
                  subst hd
                  exact ihV sys fuel bin θ p (h + 1) d θnew bin₁ hV
                | inr hd =>
                  exact ihR sys fuel bin₁ (extendT θ θnew) h prest proofs θf bin₂
                    ht d hd

/-- C4: `verify_recursion` returns None (no derivation, bin unchanged)
whenever the height argument exceeds `max_derivation_height`, and
consequently every derivation returned by `verify` has tree height at most
`max_derivation_height + 1`. -/
theorem search_depth_bound :
    (∀ (sys : FormalSystem) (fuel r : Nat) (bin : List String)
        (θ : UnificationTable) (goal : Judgement) (h : Nat),
      sys.max_derivation_height < h →
      verifyRec sys fuel r bin θ goal h = some (none, bin)) ∧
    (∀ (sys : FormalSystem) (fuel r : Nat) (goal : Judgement) (d : Deriv),
      verify sys fuel r goal = some (some d) →
      heightD d ≤ sys.max_derivation_height + 1) := by
  constructor
  · intro sys fuel r bin θ goal h hh
    cases r with
    | zero => simp [verifyRec, hh]
    | succ r => simp [verifyRec, hh]
  · intro sys fuel r goal d hv
    simp only [verify] at hv
    cases hr : verifyRec sys fuel r [] [] goal 0 with
    | none => simp [hr] at hv
    | some res =>
      obtain ⟨ores, bin'⟩ := res
      cases ores with
      | none => simp [hr] at hv
      | some pr =>
        obtain ⟨proof, θ⟩ := pr
        simp only [hr] at hv
        cases hap : applyD fuel θ proof with
        | none => simp [hap] at hv
        | some d0 =>
          simp only [hap, Option.map_some', Option.some.injEq] at hv
          subst hv
          have hb := (searchHeightBound r).1 sys fuel [] [] goal 0 proof θ bin' hr
          have he := applyD_height proof fuel θ d0 hap
          omega

/-- Witness for C4 at the one-axiom system nat(zero) with bound 3. -/
theorem search_depth_bound_witness :
    verifyRec ⟨[Rule.taut "zero" (Judgement.Operator "nat" [Judgement.Operator "zero" []])], 3⟩
        30 5 [] [] (Judgement.Operator "nat" [Judgement.Operator "zero" []]) 4 =
      some (none, []) ∧
    heightD (Deriv.node [] (Judgement.Operator "nat" [Judgement.Operator "zero" []]) "zero") ≤
      (⟨[Rule.taut "zero" (Judgement.Operator "nat" [Judgement.Operator "zero" []])], 3⟩ :
        FormalSystem).max_derivation_height + 1 :=
  ⟨search_depth_bound.1 _ 30 5 [] [] _ 4 (by decide),
   search_depth_bound.2
     ⟨[Rule.taut "zero" (Judgement.Operator "nat" [Judgement.Operator "zero" []])], 3⟩
     30 5 (Judgement.Operator "nat" [Judgement.Operator "zero" []])
     (Deriv.node [] (Judgement.Operator "nat" [Judgement.Operator "zero" []]) "zero") rfl⟩


/-! ### Loop-breaker discipline (C3) -/

/-- C3: when the normalised key of the current goal is already in the bin
the search call fails immediately with the bin unchanged; on the failure
path the key is inserted into the bin after the whole candidate loop has
been tried; on the success path the result and bin of the candidate loop
pass through unchanged, with no key insertion. -/
theorem bin_discipline :
    (∀ (sys : FormalSystem) (fuel r : Nat) (bin : List String)
        (θ : UnificationTable) (goal : Judgement) (h : Nat) (key : String),
      ¬ sys.max_derivation_height < h →
      normalizedKey fuel θ goal = some key →
      key ∈ bin →
      verifyRec sys fuel (r + 1) bin θ goal h = some (none, bin)) ∧
    (∀ (sys : FormalSystem) (fuel r : Nat) (bin : List String)
        (θ : UnificationTable) (goal : Judgement) (h : Nat) (key : String)
        (bin' : List String),
      ¬ sys.max_derivation_height < h →
      normalizedKey fuel θ goal = some key →
      key ∉ bin →
      verifyRec sys fuel (r + 1) bin θ goal h = some (none, bin') →
      key ∈ bin' ∧
        ∃ paths bin₁, getPaths fuel sys θ goal = some paths ∧
          tryPaths sys fuel r bin goal h paths = some (none, bin₁) ∧
          bin' = binInsert key bin₁) ∧
    (∀ (sys : FormalSystem) (fuel r : Nat) (bin : List String)
        (θ : UnificationTable) (goal : Judgement) (h : Nat)
        (res : Deriv × UnificationTable) (bin' : List String),
      verifyRec sys fuel (r + 1) bin θ goal h = some (some res, bin') →
      ∃ key paths, normalizedKey fuel θ goal = some key ∧ key ∉ bin ∧
        getPaths fuel sys θ goal = some paths ∧
        tryPaths sys fuel r bin goal h paths = some (some res, bin')) := by
  refine ⟨?_, ?_, ?_⟩
  · intro sys fuel r bin θ goal h key hh hk hb
    simp [verifyRec, hh, hk, hb]
  · intro sys fuel r bin θ goal h key bin' hh hk hb hv
    simp only [verifyRec, if_neg hh, hk, if_neg hb] at hv
    cases hp : getPaths fuel sys θ goal with
    | none => simp only [hp] at hv; simp at hv
    | some paths =>
      simp only [hp] at hv
      cases ht : tryPaths sys fuel r bin goal h paths with
      | none => simp only [ht] at hv; simp at hv
      | some res =>
        obtain ⟨ores, bin₁⟩ := res
        cases ores with
        | none =>
          simp only [ht, Option.some.injEq, Prod.mk.injEq] at hv
          obtain ⟨-, h2⟩ := hv
          subst h2
          refine ⟨?_, paths, bin₁, rfl, ht, rfl⟩
          simp only [binInsert]
          by_cases hm : key ∈ bin₁
          · simp [hm]
          · simp [hm]
        | some res' =>
          simp only [ht, Option.some.injEq, Prod.mk.injEq] at hv
          exact absurd hv.1 (by simp)
  · intro sys fuel r bin θ goal h res bin' hv
    simp only [verifyRec] at hv
    by_cases hh : sys.max_derivation_height < h
    · simp [hh] at hv
    · rw [if_neg hh] at hv
      cases hk : normalizedKey fuel θ goal with
      | none => simp only [hk] at hv; simp at hv
      | some key =>
        simp only [hk] at hv
        by_cases hb : key ∈ bin
        · simp [hb] at hv
        · rw [if_neg hb] at hv
          cases hp : getPaths fuel sys θ goal with
          | none => simp only [hp] at hv; simp at hv
          | some paths =>
            simp only [hp] at hv
            cases ht : tryPaths sys fuel r bin goal h paths with
            | none => simp only [ht] at hv; simp at hv
            | some tres =>
              obtain ⟨ores, bin₁⟩ := tres
              cases ores with
              | none => simp only [ht] at hv; simp at hv
              | some res₀ =>
                simp only [ht, Option.some.injEq, Prod.mk.injEq,
                  Option.some.injEq] at hv
                obtain ⟨h1, h2⟩ := hv
                subst h2
                exact ⟨key, paths, rfl, hb, rfl, by rw [h1] at ht; exact ht⟩

/-- Witness for C3: a pruned call, a failing run that records its key,
and a successful run whose bin passes through unchanged. -/
theorem bin_discipline_witness :
    (verifyRec ⟨[Rule.taut "zero"
          (Judgement.Operator "nat" [Judgement.Operator "zero" []])], 3⟩
        30 5 ["nat(one())"] [] (Judgement.Operator "nat" [Judgement.Operator "one" []]) 0 =
      some (none, ["nat(one())"])) ∧
    ("nat(one())" ∈ ["nat(one())"] ∧
      ∃ paths bin₁, getPaths 30
          (⟨[Rule.taut "zero"
              (Judgement.Operator "nat" [Judgement.Operator "zero" []])], 3⟩ : FormalSystem)
          [] (Judgement.Operator "nat" [Judgement.Operator "one" []]) = some paths ∧
        tryPaths ⟨[Rule.taut "zero"
              (Judgement.Operator "nat" [Judgement.Operator "zero" []])], 3⟩
            30 4 [] (Judgement.Operator "nat" [Judgement.Operator "one" []]) 0 paths =
          some (none, bin₁) ∧
        ["nat(one())"] = binInsert "nat(one())" bin₁) ∧
    (∃ key paths, normalizedKey 30 []
          (Judgement.Operator "nat" [Judgement.Operator "zero" []]) = some key ∧
        key ∉ ([] : List String) ∧
        getPaths 30
          (⟨[Rule.taut "zero"
              (Judgement.Operator "nat" [Judgement.Operator "zero" []])], 3⟩ : FormalSystem)
          [] (Judgement.Operator "nat" [Judgement.Operator "zero" []]) = some paths ∧
        tryPaths ⟨[Rule.taut "zero"
              (Judgement.Operator "nat" [Judgement.Operator "zero" []])], 3⟩
            30 4 [] (Judgement.Operator "nat" [Judgement.Operator "zero" []]) 0 paths =
          some (some (Deriv.node []
            (Judgement.Operator "nat" [Judgement.Operator "zero" []]) "zero", []), [])) :=
  ⟨bin_discipline.1 _ 30 4 ["nat(one())"] [] _ 0 "nat(one())"
      (by decide) rfl (by decide),
   bin_discipline.2.1 _ 30 4 [] [] _ 0 "nat(one())" ["nat(one())"]
      (by decide) rfl (by decide) rfl,
   bin_discipline.2.2 _ 30 4 [] [] _ 0
      (Deriv.node [] (Judgement.Operator "nat" [Judgement.Operator "zero" []]) "zero", []) []
      rfl⟩

/-! ### Pretty-printing line uniformity (C9) -/


theorem spaces_length (n : Nat) : (spaces n).length = n := by
  simp [spaces, String.length]

theorem padCenter_length (w : Nat) (s : String) :
    (padCenter w s).length = max w s.length := by
  simp only [padCenter]
  by_cases h : s.length ≥ w
  · rw [if_pos h]; omega
  · rw [if_neg h]
    rw [String.length_append, String.length_append, spaces_length, spaces_length]
    omega

theorem foldl_append_length : ∀ (l : List String) (acc : String),
    (l.foldl (fun r s => r ++ s) acc).length = acc.length + (l.map String.length).sum := by
  intro l
  induction l with
  | nil => intro acc; simp
  | cons s rest ih =>
    intro acc
    simp only [List.foldl, List.map, List.sum_cons]
    rw [ih, String.length_append]
    omega

theorem join_length (l : List String) :
    (String.join l).length = (l.map String.length).sum := by
  simp [String.join, foldl_append_length]

theorem mk_length (l : List Char) : (String.mk l).length = l.length := rfl


/-- A string whose every character occupies one UTF-8 byte, so that the
Rust byte length `str::len` and the character count agree. -/
def asciiStr (s : String) : Bool := s.data.all (fun c => c.utf8Size == 1)

mutual

/-- All rule labels and rendered conclusions of a derivation are ASCII
in the sense of `asciiStr`. -/
def asciiD : Deriv → Bool
  | .node ps c l => asciiStr (jStr c) && asciiStr l && asciiDL ps

/-- `asciiD` over a premise list. -/
def asciiDL : List Deriv → Bool
  | [] => true
  | d :: ds => asciiD d && asciiDL ds

end

theorem sum_utf8_ascii : ∀ l : List Char, (∀ c ∈ l, c.utf8Size = 1) →
    (l.map Char.utf8Size).sum = l.length := by
  intro l
  induction l with
  | nil => intro _; simp
  | cons c cs ih =>
    intro h
    simp only [List.map, List.sum_cons, List.length_cons]
    rw [h c (by simp), ih (fun c' hc' => h c' (by simp [hc']))]
    omega

theorem byteLen_ascii {s : String} (h : asciiStr s = true) : byteLen s = s.length := by
  simp only [asciiStr, List.all_eq_true, beq_iff_eq] at h
  simp only [byteLen, String.length]
  exact sum_utf8_ascii s.data h

theorem asciiStr_append {s t : String} (hs : asciiStr s = true)
    (ht : asciiStr t = true) : asciiStr (s ++ t) = true := by
  simp only [asciiStr, List.all_eq_true] at hs ht ⊢
  intro c hc
  rw [String.data_append] at hc
  rcases List.mem_append.1 hc with h | h
  · exact hs c h
  · exact ht c h

theorem asciiStr_mk_replicate (n : Nat) (c : Char) (hc : c.utf8Size = 1) :
    asciiStr (String.mk (List.replicate n c)) = true := by
  simp only [asciiStr, List.all_eq_true, beq_iff_eq]
  intro c' hc'
  rw [(List.eq_of_mem_replicate hc' : c' = c)]
  exact hc

theorem asciiStr_spaces (n : Nat) : asciiStr (spaces n) = true :=
  asciiStr_mk_replicate n ' ' (by decide)

theorem asciiStr_padCenter {w : Nat} {s : String} (hs : asciiStr s = true) :
    asciiStr (padCenter w s) = true := by
  simp only [padCenter]
  by_cases h : s.length ≥ w
  · rw [if_pos h]; exact hs
  · rw [if_neg h]
    exact asciiStr_append (asciiStr_append (asciiStr_spaces _) hs) (asciiStr_spaces _)

theorem asciiStr_join : ∀ {l : List String}, (∀ s ∈ l, asciiStr s = true) →
    asciiStr (String.join l) = true := by
  have haux : ∀ (l : List String) (acc : String), asciiStr acc = true →
      (∀ s ∈ l, asciiStr s = true) →
      asciiStr (l.foldl (fun r s => r ++ s) acc) = true := by
    intro l
    induction l with
    | nil => intro acc hacc _; exact hacc
    | cons s rest ih =>
      intro acc hacc hl
      simp only [List.foldl]
      exact ih (acc ++ s) (asciiStr_append hacc (hl s (by simp)))
        (fun s' hs' => hl s' (by simp [hs']))
  intro l hl
  exact haux l "" rfl hl

theorem headD_mem {b : List String} (h : b ≠ []) : b.headD "" ∈ b := by
  cases b with
  | nil => exact absurd rfl h
  | cons a as => simp

theorem asciiStr_rowPiece {i : Nat} {b : List String}
    (hasc : ∀ l ∈ b, asciiStr l = true) : asciiStr (rowPiece i b) = true := by
  simp only [rowPiece]
  cases hg : b.get? i with
  | none => exact asciiStr_spaces _
  | some line =>
    rw [List.get?_eq_getElem?] at hg
    exact hasc line (List.getElem?_mem hg)

theorem prettyPrint_two (d : Deriv) : 2 ≤ (prettyPrint d).length := by
  cases d with
  | node ps c l => simp [prettyPrint]

theorem prettyPrint_ne_nil (d : Deriv) : prettyPrint d ≠ [] := by
  cases d with
  | node ps c l => simp [prettyPrint]

theorem renderPremises_ne : ∀ ds : List Deriv, ∀ b ∈ renderPremises ds, b ≠ [] := by
  intro ds
  induction ds with
  | nil => intro b hb; simp [renderPremises] at hb
  | cons d rest ih =>
    intro b hb
    match rest with
    | [] =>
      simp only [renderPremises, List.mem_singleton] at hb
      subst hb
      exact prettyPrint_ne_nil d
    | r1 :: rrest =>
      simp only [renderPremises, List.mem_cons] at hb
      rcases hb with rfl | hb2
      · intro hemp
        simp only [List.map_eq_nil_iff] at hemp
        exact prettyPrint_ne_nil d hemp
      · exact ih b hb2

theorem merged_len (blocks : List (List String)) (i : Nat)
    (hb : ∀ b ∈ blocks, b ≠ [] ∧ ∀ l ∈ b,
      l.length = (b.headD "").length ∧ asciiStr l = true) :
    (String.join (blocks.map (rowPiece i))).length =
      (blocks.map (fun b => (b.headD "").length)).sum := by
  rw [join_length, List.map_map]
  congr 1
  apply List.map_congr_left
  intro b hbmem
  obtain ⟨hne, huni⟩ := hb b hbmem
  have hheadascii : asciiStr (b.headD "") = true := (huni _ (headD_mem hne)).2
  cases hg : b[i]? with
  | none =>
    simp only [Function.comp, rowPiece, List.get?_eq_getElem?, hg]
    rw [spaces_length]
    exact byteLen_ascii hheadascii
  | some line =>
    have hmem : line ∈ b := List.getElem?_mem hg
    simp [Function.comp, rowPiece, List.get?_eq_getElem?, hg, (huni line hmem).1]

theorem prettyPrint_uniform_aux : ∀ d : Deriv, asciiD d = true →
    ∀ l ∈ prettyPrint d,
      l.length = ((prettyPrint d).headD "").length ∧ asciiStr l = true := by
  intro d
  induction d using Deriv.rec
    (motive_2 := fun ds => asciiDL ds = true → ∀ b ∈ renderPremises ds,
      b ≠ [] ∧ ∀ l ∈ b, l.length = (b.headD "").length ∧ asciiStr l = true) with
  | node prems concl label ihps =>
    intro hasc l hl
    simp only [asciiD, Bool.and_eq_true] at hasc
    obtain ⟨⟨hac, hal⟩, haps⟩ := hasc
    have hb := ihps haps
    have hcl : byteLen (jStr concl) = (jStr concl).length := byteLen_ascii hac
    have hll : byteLen label = label.length := byteLen_ascii hal
    have hsum : (renderPremises prems).map (fun b => byteLen (b.headD "")) =
        (renderPremises prems).map (fun b => (b.headD "").length) :=
      List.map_congr_left fun b hbm =>
        byteLen_ascii ((hb b hbm).2 _ (headD_mem (hb b hbm).1)).2
    simp only [prettyPrint, List.headD_cons, hcl, hll, hsum] at hl ⊢
    rcases List.mem_cons.1 hl with rfl | hl2
    · exact ⟨rfl, asciiStr_append (asciiStr_spaces _) (asciiStr_padCenter hac)⟩
    rcases List.mem_cons.1 hl2 with rfl | hl3
    · constructor
      · simp only [String.length_append, padCenter_length, spaces_length,
          mk_length, List.length_replicate]
        omega
      · exact asciiStr_append hal
          (asciiStr_padCenter (asciiStr_mk_replicate _ '-' (by decide)))
    · obtain ⟨i, hi, rfl⟩ := List.mem_map.1 hl3
      constructor
      · rw [padCenter_length]
        rw [merged_len (renderPremises prems) i hb]
        simp only [String.length_append, padCenter_length, spaces_length]
        omega
      · refine asciiStr_padCenter (asciiStr_join ?_)
        intro s hs
        obtain ⟨b, hbm, rfl⟩ := List.mem_map.1 hs
        exact asciiStr_rowPiece fun l' hl' => ((hb b hbm).2 l' hl').2
  | nil =>
    rename_i hDL b hb
    simp [renderPremises] at hb
  | cons d rest ihd ihrest =>
    rename_i hDL b hb
    simp only [asciiDL, Bool.and_eq_true] at hDL
    obtain ⟨haD, haDL⟩ := hDL
    match rest with
    | [] =>
      simp only [renderPremises, List.mem_singleton] at hb
      subst hb
      exact ⟨prettyPrint_ne_nil d, fun l hl => ihd haD l hl⟩
    | r1 :: rrest =>
      simp only [renderPremises, List.mem_cons] at hb
      rcases hb with rfl | hb2
      · constructor
        · intro hemp
          simp only [List.map_eq_nil_iff] at hemp
          exact prettyPrint_ne_nil d hemp
        · intro l hl
          obtain ⟨l0, hl0, rfl⟩ := List.mem_map.1 hl
          have hd1 := ihd haD l0 hl0
          have hhead : ((prettyPrint d).map (fun s => s ++ "  ")).headD "" =
              ((prettyPrint d).headD "") ++ "  " := by
            cases hpp : prettyPrint d with
            | nil => exact absurd hpp (prettyPrint_ne_nil d)
            | cons a as => simp
          constructor
          · rw [hhead, String.length_append, String.length_append, hd1.1]
          · exact asciiStr_append hd1.2 (by decide)
      · exact ihrest haDL b hb2

/-- C9 (amended): every pretty-printed block has at least two lines
(conclusion and bar) and every rendered premise block is non-empty, so
reading a block's first line is always safe; and whenever every label
and rendered conclusion of the derivation is ASCII — so the byte widths
the code budgets coincide with the character widths the centring pads
to — all lines of the block share one character length. -/
theorem pretty_print_uniform :
    (∀ d : Deriv, 2 ≤ (prettyPrint d).length) ∧
    (∀ ds : List Deriv, ∀ b ∈ renderPremises ds, b ≠ []) ∧
    (∀ d : Deriv, asciiD d = true →
      ∀ l ∈ prettyPrint d, l.length = ((prettyPrint d).headD "").length) :=
  ⟨prettyPrint_two, renderPremises_ne,
   fun d h l hl => (prettyPrint_uniform_aux d h l hl).1⟩

/-- C9 counterexample: with the non-ASCII rule label "é" (one character,
two UTF-8 bytes) the conclusion line is 7 characters but the bar line
only 6, because the label's two bytes are budgeted into the width while
the centring counts its single character: the lines of a block do not
all share one character length. -/
theorem pretty_print_nonuniform_cex :
    (prettyPrint (Deriv.node [] (Judgement.Operator "p" []) "é")).map String.length =
      [7, 6] ∧
    ¬ ∀ l ∈ prettyPrint (Deriv.node [] (Judgement.Operator "p" []) "é"),
        l.length =
          ((prettyPrint (Deriv.node [] (Judgement.Operator "p" []) "é")).headD
            "").length :=
  ⟨by decide, by decide⟩

/-- Witness for C9 at an ASCII two-node derivation. -/
theorem pretty_print_uniform_witness :
    (2 ≤ (prettyPrint (Deriv.node [Deriv.node [] (Judgement.Variable "x") "a"]
        (Judgement.Variable "y") "r")).length) ∧
    (["  x ", "a---"] ≠ ([] : List String)) ∧
    (asciiD (Deriv.node [Deriv.node [] (Judgement.Variable "x") "a"]
        (Judgement.Variable "y") "r") = true ∧
      "a--- ".length = ((prettyPrint (Deriv.node
        [Deriv.node [] (Judgement.Variable "x") "a"]
        (Judgement.Variable "y") "r")).headD "").length) :=
  ⟨pretty_print_uniform.1 (Deriv.node [Deriv.node [] (Judgement.Variable "x") "a"]
      (Judgement.Variable "y") "r"),
   pretty_print_uniform.2.1 [Deriv.node [] (Judgement.Variable "x") "a"]
      ["  x ", "a---"] (by decide),
   ⟨by decide,
    pretty_print_uniform.2.2 (Deriv.node [Deriv.node [] (Judgement.Variable "x") "a"]
        (Judgement.Variable "y") "r") (by decide) "a--- " (by decide)⟩⟩




/-! ### The addition-relation scenario (C7) -/

/-- Candidate paths depend only on the axioms of the system. -/
theorem getPaths_congr (fuel : Nat) {sys sys' : FormalSystem}
    (hax : sys.axioms = sys'.axioms) (θ : UnificationTable) (goal : Judgement) :
    getPaths fuel sys θ goal = getPaths fuel sys' θ goal := by
  simp [getPaths, hax]

/-- Lockstep comparison of the search under two systems with the same
axioms: while the remaining recursion fuel cannot drive the height past
either bound, the two runs are identical. -/
theorem boundIrrel (sys sys' : FormalSystem) (hax : sys.axioms = sys'.axioms)
    (fuel : Nat) : ∀ r,
    (∀ bin θ goal h,
      4 * h + r ≤ 4 * sys.max_derivation_height →
      4 * h + r ≤ 4 * sys'.max_derivation_height →
      verifyRec sys fuel r bin θ goal h = verifyRec sys' fuel r bin θ goal h) ∧
    (∀ bin goal h paths,
      4 * h + r + 1 ≤ 4 * sys.max_derivation_height →
      4 * h + r + 1 ≤ 4 * sys'.max_derivation_height →
      tryPaths sys fuel r bin goal h paths = tryPaths sys' fuel r bin goal h paths) ∧
    (∀ bin goal h θc rule pl,
      4 * h + r + 2 ≤ 4 * sys.max_derivation_height →
      4 * h + r + 2 ≤ 4 * sys'.max_derivation_height →
      tryPerms sys fuel r bin goal h θc rule pl =
        tryPerms sys' fuel r bin goal h θc rule pl) ∧
    (∀ bin θ h ps,
      4 * h + r + 3 ≤ 4 * sys.max_derivation_height →
      4 * h + r + 3 ≤ 4 * sys'.max_derivation_height →
      tryPremises sys fuel r bin θ h ps = tryPremises sys' fuel r bin θ h ps) := by
  intro r
  induction r with
  | zero =>
    refine ⟨?_, ?_, ?_, ?_⟩
    · intro bin θ goal h hA hB
      have hhA : ¬ sys.max_derivation_height < h := by omega
      have hhB : ¬ sys'.max_derivation_height < h := by omega
      simp [verifyRec, hhA, hhB]
    · intro bin goal h paths hA hB; simp [tryPaths]
    · intro bin goal h θc rule pl hA hB; simp [tryPerms]
    · intro bin θ h ps hA hB; simp [tryPremises]
  | succ r ih =>
    obtain ⟨ihV, ihP, ihM, ihR⟩ := ih
    refine ⟨?_, ?_, ?_, ?_⟩
    · intro bin θ goal h hA hB
      have hhA : ¬ sys.max_derivation_height < h := by omega
      have hhB : ¬ sys'.max_derivation_height < h := by omega
      simp only [verifyRec, if_neg hhA, if_neg hhB]
      cases hk : normalizedKey fuel θ goal with
      | none => rfl
      | some key =>
        simp only []
        by_cases hkb : key ∈ bin
        · simp [hkb]
        · rw [if_neg hkb, if_neg hkb, getPaths_congr fuel hax θ goal]
          cases hp : getPaths fuel sys' θ goal with
          | none => rfl
          | some paths =>
            simp only []
            rw [ihP bin goal h paths (by omega) (by omega)]
    · intro bin goal h paths hA hB
      match paths with
      | [] => simp [tryPaths]
      | (θc, rule) :: rest =>
        simp only [tryPaths]
        rw [ihM bin goal h θc rule (perms rule.premises) (by omega) (by omega)]
        cases ht : tryPerms sys' fuel r bin goal h θc rule (perms rule.premises) with
        | none => rfl
        | some res =>
          obtain ⟨ores, bin₁⟩ := res
          cases ores with
          | none => exact ihP bin₁ goal h rest (by omega) (by omega)
          | some res' => rfl
    · intro bin goal h θc rule pl hA hB
      match pl with
      | [] => simp [tryPerms]
      | perm :: restPerms =>
        simp only [tryPerms]
        rw [ihR bin θc h perm (by omega) (by omega)]
        cases ht : tryPremises sys' fuel r bin θc h perm with
        | none => rfl
        | some res =>
          obtain ⟨ores, bin₁⟩ := res
          cases ores with
          | none => exact ihM bin₁ goal h θc rule restPerms (by omega) (by omega)
          | some res' => rfl
    · intro bin θ h ps hA hB
      match ps with
      | [] => simp [tryPremises]
      | p :: prest =>
        simp only [tryPremises]
        rw [ihV bin θ p (h + 1) (by omega) (by omega)]
        cases hV : verifyRec sys' fuel r bin θ p (h + 1) with
        | none => rfl
        | some res =>
          obtain ⟨ores, bin₁⟩ := res
          cases ores with
          | none => rfl
          | some res' =>
            obtain ⟨proof, θnew⟩ := res'
            simp only []
            rw [ihR bin₁ (extendT θ θnew) h prest (by omega) (by omega)]

def zeroS : Judgement := .Operator "zero" []

def succS (n : Judgement) : Judgement := .Operator "succ" [n]

def sumJ (a b c : Judgement) : Judgement := .Operator "sum" [a, b, c]

def sumScenarioSys (h : Nat) : FormalSystem :=
  { axioms :=
      [ Rule.taut "s1" (sumJ (.Variable "n") zeroS (.Variable "n"))
      , Rule.mkRule "s2" [sumJ (.Variable "n") (.Variable "m") (.Variable "p")]
          (sumJ (.Variable "n") (succS (.Variable "m")) (succS (.Variable "p")))
      ]
  , max_derivation_height := h }

def sumWitnessDeriv : Deriv :=
  .node
    [.node
      [.node []
        (sumJ (succS zeroS) zeroS (succS zeroS)) "s1"]
      (sumJ (succS zeroS) (succS zeroS) (succS (succS zeroS))) "s2"]
    (sumJ (succS zeroS) (succS (succS zeroS)) (succS (succS (succS zeroS)))) "s2"

/-- C7: in the addition-relation system with axioms s1 and s2 and any
depth bound of at least 4, the goal sum(zero, succ(zero), zero) is
rejected, and the goal sum(succ(zero), x, succ(succ(succ(zero)))) yields
a derivation whose root conclusion, after the final substitution, is
sum(succ(zero), succ(succ(zero)), succ(succ(succ(zero)))). -/
theorem sum_scenario (M : Nat) (hM : 4 ≤ M) :
    verify (sumScenarioSys M) 60 16 (sumJ zeroS (succS zeroS) zeroS) = some none ∧
    ∃ d, verify (sumScenarioSys M) 60 16
        (sumJ (succS zeroS) (.Variable "x") (succS (succS (succS zeroS)))) =
          some (some d) ∧
      d.conclusionD =
        sumJ (succS zeroS) (succS (succS zeroS)) (succS (succS (succS zeroS))) := by
  have hax : (sumScenarioSys M).axioms = (sumScenarioSys 4).axioms := rfl
  have hmax : (sumScenarioSys M).max_derivation_height = M := rfl
  have hmax4 : (sumScenarioSys 4).max_derivation_height = 4 := rfl
  have e1 := (boundIrrel (sumScenarioSys M) (sumScenarioSys 4) hax 60 16).1
    [] [] (sumJ zeroS (succS zeroS) zeroS) 0
    (by rw [hmax]; omega) (by rw [hmax4])
  have e2 := (boundIrrel (sumScenarioSys M) (sumScenarioSys 4) hax 60 16).1
    [] [] (sumJ (succS zeroS) (.Variable "x") (succS (succS (succS zeroS)))) 0
    (by rw [hmax]; omega) (by rw [hmax4])
  constructor
  · have hA : verify (sumScenarioSys M) 60 16 (sumJ zeroS (succS zeroS) zeroS) =
        verify (sumScenarioSys 4) 60 16 (sumJ zeroS (succS zeroS) zeroS) := by
      simp only [verify]
      rw [e1]
    rw [hA]
    exact rfl
  · refine ⟨sumWitnessDeriv, ?_, rfl⟩
    have hB : verify (sumScenarioSys M) 60 16
        (sumJ (succS zeroS) (.Variable "x") (succS (succS (succS zeroS)))) =
        verify (sumScenarioSys 4) 60 16
        (sumJ (succS zeroS) (.Variable "x") (succS (succS (succS zeroS)))) := by
      simp only [verify]
      rw [e2]
    rw [hB]
    exact rfl

/-- Witness for C7 at the minimal bound 4. -/
theorem sum_scenario_witness :
    (4 : Nat) ≤ 4 ∧
    (verify (sumScenarioSys 4) 60 16 (sumJ zeroS (succS zeroS) zeroS) = some none ∧
    ∃ d, verify (sumScenarioSys 4) 60 16
        (sumJ (succS zeroS) (.Variable "x") (succS (succS (succS zeroS)))) =
          some (some d) ∧
      d.conclusionD =
        sumJ (succS zeroS) (succS (succS zeroS)) (succS (succS (succS zeroS)))) :=
  ⟨by decide, sum_scenario 4 (by decide)⟩



/-! ### Unification soundness (C1)

The substitution application as an inductive derivation relation, so that
termination of `apply_substitution` can be reasoned about structurally. -/

mutual

inductive AppD : UnificationTable → Judgement → Judgement → Prop where
  | unbound : ∀ {θ v}, findT θ v = none → AppD θ (.Variable v) (.Variable v)
  | bound : ∀ {θ v t r}, findT θ v = some t → AppD θ t r → AppD θ (.Variable v) r
  | op : ∀ {θ p ss rs}, AppDL θ ss rs → AppD θ (.Operator p ss) (.Operator p rs)

inductive AppDL : UnificationTable → List Judgement → List Judgement → Prop where
  | nil : ∀ {θ}, AppDL θ [] []
  | cons : ∀ {θ j r js rs}, AppD θ j r → AppDL θ js rs → AppDL θ (j :: js) (r :: rs)

end

theorem findT_insert_self (k : String) (v : Judgement) (θ : UnificationTable) :
    findT (insertT k v θ) k = some v := by
  simp [insertT, findT]

theorem findT_filter_ne (θ : UnificationTable) (k k' : String) (h : k' ≠ k) :
    findT (θ.filter (fun p => p.1 ≠ k)) k' = findT θ k' := by
  induction θ with
  | nil => simp [findT]
  | cons p rest ih =>
    by_cases hp : p.1 = k
    · simp only [List.filter]
      rw [show (decide (p.1 ≠ k)) = false by simp [hp]]
      rw [ih]
      simp only [findT]
      rw [if_neg (by rw [hp]; exact fun he => h he.symm)]
    · simp only [List.filter]
      rw [show (decide (p.1 ≠ k)) = true by simp [hp]]
      simp only [findT]
      by_cases hk : p.1 = k'
      · simp [hk]
      · rw [if_neg hk, if_neg hk, ih]

theorem findT_insert_ne (k k' : String) (v : Judgement) (θ : UnificationTable)
    (h : k' ≠ k) : findT (insertT k v θ) k' = findT θ k' := by
  simp only [insertT, findT]
  rw [if_neg (fun he => h he.symm), findT_filter_ne θ k k' h]

theorem appD_of_applyS : ∀ m θ,
    (∀ j r, applyS m θ j = some r → AppD θ j r) ∧
    (∀ js rs, applyL m θ js = some rs → AppDL θ js rs) := by
  intro m
  induction m with
  | zero => exact fun θ => ⟨fun j r h => by simp [applyS] at h,
      fun js rs h => by simp [applyL] at h⟩
  | succ m ih =>
    intro θ
    constructor
    · intro j r h
      match j with
      | .Variable v =>
        simp only [applyS] at h
        cases hf : findT θ v with
        | none => rw [hf] at h; cases h; exact .unbound hf
        | some t => rw [hf] at h; exact .bound hf ((ih θ).1 t r h)
      | .Operator p ss =>
        simp only [applyS] at h
        cases hl : applyL m θ ss with
        | none => rw [hl] at h; simp at h
        | some rs =>
          rw [hl] at h
          simp only [Option.map_some', Option.some.injEq] at h
          subst h
          exact .op ((ih θ).2 ss rs hl)
    · intro js rs h
      match js with
      | [] => simp only [applyL, Option.some.injEq] at h; subst h; exact .nil
      | j :: rest =>
        simp only [applyL] at h
        cases hj : applyS m θ j with
        | none => rw [hj] at h; simp at h
        | some r1 =>
          rw [hj] at h
          cases hrest : applyL m θ rest with
          | none => rw [hrest] at h; simp at h
          | some rs1 =>
            rw [hrest] at h
            cases h
            exact .cons ((ih θ).1 j r1 hj) ((ih θ).2 rest rs1 hrest)

theorem applyS_of_appD : ∀ {θ j r}, AppD θ j r → ∃ m, applyS m θ j = some r := by
  intro θ j r hd
  induction hd using AppD.rec
    (motive_2 := fun js rs _ => ∃ m, applyL m θ js = some rs) with
  | unbound hf => exact ⟨1, by simp [applyS, hf]⟩
  | bound hf _ ih =>
    obtain ⟨m, hm⟩ := ih
    exact ⟨m + 1, by simp [applyS, hf, hm]⟩
  | op _ ih =>
    obtain ⟨m, hm⟩ := ih
    exact ⟨m + 1, by simp [applyS, hm]⟩
  | nil => exact ⟨1, by simp [applyL]⟩
  | cons _ _ ihj ihl =>
    obtain ⟨m1, h1⟩ := ihj
    obtain ⟨m2, h2⟩ := ihl
    refine ⟨max m1 m2 + 1, ?_⟩
    have h1' := applyS_mono (Nat.le_max_left m1 m2) h1
    have h2' := applyL_mono (Nat.le_max_right m1 m2) h2
    simp [applyL, h1', h2']

theorem appD_det : ∀ {θ j r₁}, AppD θ j r₁ → ∀ {r₂}, AppD θ j r₂ → r₁ = r₂ := by
  intro θ j r₁ hd
  induction hd using AppD.rec
    (motive_2 := fun js rs _ => ∀ {rs₂}, AppDL θ js rs₂ → rs = rs₂) with
  | unbound hf =>
    intro r₂ h₂
    cases h₂ with
    | unbound _ => rfl
    | bound hf₂ _ => rw [hf] at hf₂; cases hf₂
  | bound hf _ ih =>
    intro r₂ h₂
    cases h₂ with
    | unbound hf₂ => rw [hf] at hf₂; cases hf₂
    | bound hf₂ hd₂ =>
      rw [hf] at hf₂
      cases hf₂
      exact ih hd₂
  | op _ ih =>
    intro r₂ h₂
    cases h₂ with
    | op hl₂ => rw [ih hl₂]
  | nil =>
    rename_i rs₂ h₂
    cases h₂; rfl
  | cons _ _ ihj ihl =>
    rename_i rs₂ h₂
    cases h₂ with
    | cons hj₂ hl₂ => rw [ihj hj₂, ihl hl₂]

def Tot (θ : UnificationTable) : Prop := ∀ j, ∃ r, AppD θ j r

def EqS (θ : UnificationTable) (a b : Judgement) : Prop :=
  ∃ r, AppD θ a r ∧ AppD θ b r

theorem eqS_refl {θ : UnificationTable} (ht : Tot θ) (a : Judgement) : EqS θ a a := by
  obtain ⟨r, hr⟩ := ht a
  exact ⟨r, hr, hr⟩

theorem eqS_symm {θ : UnificationTable} {a b : Judgement} (h : EqS θ a b) : EqS θ b a := by
  obtain ⟨r, h1, h2⟩ := h
  exact ⟨r, h2, h1⟩

theorem eqS_trans {θ : UnificationTable} {a b c : Judgement}
    (h1 : EqS θ a b) (h2 : EqS θ b c) : EqS θ a c := by
  obtain ⟨r, ha, hb⟩ := h1
  obtain ⟨r', hb', hc⟩ := h2
  rw [appD_det hb hb'] at ha
  exact ⟨r', ha, hc⟩

/-! #### Walk reachability, bare-variable chains and cycle exclusion -/

inductive Meets (θ : UnificationTable) (z : String) : Judgement → Prop where
  | hit : Meets θ z (.Variable z)
  | follow : ∀ {v t}, findT θ v = some t → Meets θ z t → Meets θ z (.Variable v)
  | child : ∀ {p ss c}, c ∈ ss → Meets θ z c → Meets θ z (.Operator p ss)

def VChain (θ : UnificationTable) : String → List String → String → Prop
  | u, [], z => u = z
  | u, v :: vs, z => findT θ u = some (.Variable v) ∧ VChain θ v vs z

theorem occursL_false_elem : ∀ (m : Nat) (θ : UnificationTable) (z : String)
    (ss : List Judgement), occursL m θ z ss = some false →
    ∀ c ∈ ss, ∃ m', occursS m' θ z c = some false := by
  intro m
  induction m with
  | zero => intro θ z ss h; simp [occursL] at h
  | succ m ih =>
    intro θ z ss h c hc
    match ss, hc with
    | c0 :: rest, hc =>
      simp only [occursL] at h
      cases ho : occursS m θ z c0 with
      | none => rw [ho] at h; simp at h
      | some b =>
        rw [ho] at h
        cases b with
        | true => simp at h
        | false =>
          rcases List.mem_cons.1 hc with rfl | hc2
          · exact ⟨m, ho⟩
          · exact ih θ z rest h c hc2

theorem meets_unbound_occurs {θ : UnificationTable} {z : String}
    (hz : findT θ z = none) :
    ∀ {j}, Meets θ z j → ∀ m b, occursS m θ z j = some b → b = true := by
  intro j hm
  induction hm with
  | hit =>
    intro m b h
    match m with
    | 0 => simp [occursS] at h
    | m + 1 =>
      simp only [occursS, hz] at h
      simp at h
      simp [h]
  | follow hf _ ih =>
    intro m b h
    match m with
    | 0 => simp [occursS] at h
    | m + 1 =>
      simp only [occursS, hf] at h
      exact ih m b h
  | child hc _ ih =>
    intro m b h
    match m with
    | 0 => simp [occursS] at h
    | m + 1 =>
      simp only [occursS] at h
      cases b with
      | true => rfl
      | false =>
        obtain ⟨m', hm'⟩ := occursL_false_elem m θ z _ h _ hc
        exact ih m' false hm'

theorem chain_appD {θ : UnificationTable} :
    ∀ {l u z r}, VChain θ u l z → AppD θ (.Variable u) r → AppD θ (.Variable z) r := by
  intro l
  induction l with
  | nil =>
    intro u z r hc hd
    cases hc
    exact hd
  | cons v vs ih =>
    intro u z r hc hd
    obtain ⟨hlink, htail⟩ := hc
    cases hd with
    | unbound hf => rw [hlink] at hf; cases hf
    | bound hf hd₂ =>
      rw [hlink] at hf
      cases hf
      exact ih htail hd₂

theorem chain_compose {θ : UnificationTable} :
    ∀ {l₁ u z l₂ e}, VChain θ u l₁ z → VChain θ z l₂ e →
      VChain θ u (l₁ ++ l₂) e := by
  intro l₁
  induction l₁ with
  | nil =>
    intro u z l₂ e h1 h2
    cases h1
    exact h2
  | cons v vs ih =>
    intro u z l₂ e h1 h2
    obtain ⟨hlink, htail⟩ := h1
    exact ⟨hlink, ih htail h2⟩

theorem chain_occurs {θ : UnificationTable} :
    ∀ {l u e}, VChain θ u l e → findT θ e = none →
      ∀ m b, occursS m θ e (.Variable u) = some b → b = true := by
  intro l
  induction l with
  | nil =>
    intro u e hc he m b h
    cases hc
    match m with
    | 0 => simp [occursS] at h
    | m + 1 =>
      simp only [occursS, he] at h
      simp at h
      simp [h]
  | cons v vs ih =>
    intro u e hc he m b h
    obtain ⟨hlink, htail⟩ := hc
    match m with
    | 0 => simp [occursS] at h
    | m + 1 =>
      simp only [occursS, hlink] at h
      exact ih htail he m b h

theorem cycset_no_appD (θ : UnificationTable) (S : List String)
    (hS : ∀ v ∈ S, ∃ v', v' ∈ S ∧ findT θ v = some (.Variable v')) :
    ∀ {j r}, AppD θ j r → ∀ v, v ∈ S → j = .Variable v → False := by
  intro j r hd
  induction hd using AppD.rec (motive_2 := fun js rs _ => True) with
  | unbound hf =>
    intro v hv he
    cases he
    obtain ⟨v', _, hfv⟩ := hS _ hv
    rw [hf] at hfv
    cases hfv
  | bound hf _ ih =>
    intro v hv he
    cases he
    obtain ⟨v', hv', hfv⟩ := hS _ hv
    rw [hf] at hfv
    cases hfv
    exact ih v' hv' rfl
  | op _ _ =>
    intro v hv he
    cases he
  | nil => trivial
  | cons _ _ _ _ => trivial

theorem chain_reduce {θ θ₁ : UnificationTable} {u₀ : String}
    (hdisj : ∀ v, findT θ₁ v = findT θ v ∨ findT θ₁ v = some (.Variable u₀)) :
    ∀ l s z, VChain θ₁ s l z →
      (∃ l', VChain θ s l' z) ∨ (∃ l', VChain θ u₀ l' z) := by
  intro l
  induction l with
  | nil => intro s z hc; exact .inl ⟨[], hc⟩
  | cons v vs ih =>
    intro s z hc
    obtain ⟨hlink, htail⟩ := hc
    rcases ih v z htail with ⟨l', hl'⟩ | hB
    · rcases hdisj s with hθ | hu
      · rw [hθ] at hlink
        exact .inl ⟨v :: l', hlink, hl'⟩
      · rw [hlink] at hu
        cases hu
        exact .inr ⟨l', hl'⟩
    · exact .inr hB

theorem chain_members {θ : UnificationTable} :
    ∀ {l s z}, VChain θ s l z → ∀ v ∈ (s :: l),
      v = z ∨ ∃ v', v' ∈ (s :: l) ∧ findT θ v = some (.Variable v') := by
  intro l
  induction l with
  | nil =>
    intro s z hc v hv
    cases hc
    simp at hv
    exact .inl hv
  | cons w ws ih =>
    intro s z hc v hv
    obtain ⟨hlink, htail⟩ := hc
    rcases List.mem_cons.1 hv with rfl | hv2
    · exact .inr ⟨w, by simp, hlink⟩
    · rcases ih htail v hv2 with hz | ⟨v', hv', hfv⟩
      · exact .inl hz
      · exact .inr ⟨v', by simp [List.mem_cons.1 hv'], hfv⟩

/-! #### The subterm argument and insert transfer lemmas -/

theorem appDL_mem {θ : UnificationTable} :
    ∀ {ss rs}, AppDL θ ss rs → ∀ {c}, c ∈ ss → ∃ rc, rc ∈ rs ∧ AppD θ c rc := by
  intro ss
  induction ss with
  | nil => intro rs _ c hc; simp at hc
  | cons j js ih =>
    intro rs hl c hc
    cases hl with
    | cons hj hl₂ =>
      rcases List.mem_cons.1 hc with rfl | hc2
      · exact ⟨_, by simp, hj⟩
      · obtain ⟨rc, hrc, hd⟩ := ih hl₂ hc2
        exact ⟨rc, by simp [hrc], hd⟩

theorem sizeJL_mem : ∀ {rs : List Judgement} {rc}, rc ∈ rs → sizeJ rc ≤ sizeJL rs := by
  intro rs
  induction rs with
  | nil => intro rc h; simp at h
  | cons r rest ih =>
    intro rc h
    rcases List.mem_cons.1 h with rfl | h2
    · simp [sizeJL]
    · have := ih h2
      simp [sizeJL]
      omega

theorem meets_sub {θ : UnificationTable} {z : String} :
    ∀ {j}, Meets θ z j → ∀ {r rz}, AppD θ j r → AppD θ (.Variable z) rz →
      sizeJ rz < sizeJ r ∨ (∃ u l, j = .Variable u ∧ VChain θ u l z) := by
  intro j hm
  induction hm with
  | hit => intro r rz _ _; exact .inr ⟨z, [], rfl, rfl⟩
  | follow hf _ ih =>
    intro r rz hdr hdz
    cases hdr with
    | unbound hf₂ => rw [hf] at hf₂; cases hf₂
    | bound hf₂ hd₂ =>
      rw [hf] at hf₂
      cases hf₂
      rcases ih hd₂ hdz with hs | ⟨u, l, rfl, hchain⟩
      · exact .inl hs
      · exact .inr ⟨_, u :: l, rfl, hf, hchain⟩
  | child hc _ ih =>
    intro r rz hdr hdz
    cases hdr with
    | op hl =>
      obtain ⟨rc, hrc, hdc⟩ := appDL_mem hl hc
      rcases ih hdc hdz with hs | ⟨u, l, rfl, hchain⟩
      · left
        have := sizeJL_mem hrc
        simp only [sizeJ]
        omega
      · left
        have hzc := chain_appD hchain hdc
        rw [appD_det hdz hzc]
        have := sizeJL_mem hrc
        simp only [sizeJ]
        omega

theorem avoid_insert {θ : UnificationTable} {z : String} {t : Judgement} :
    ∀ {j r}, AppD θ j r → ¬ Meets θ z j → AppD (insertT z t θ) j r := by
  intro j r hd
  induction hd using AppD.rec
    (motive_2 := fun js rs _ => (∀ c ∈ js, ¬ Meets θ z c) →
      AppDL (insertT z t θ) js rs) with
  | unbound hf =>
    rename_i v
    intro hnm
    by_cases hvz : v = z
    · exact absurd (hvz ▸ Meets.hit) hnm
    · exact .unbound (by rw [findT_insert_ne z v t θ hvz, hf])
  | bound hf hsub ih =>
    rename_i v tj rj
    intro hnm
    by_cases hvz : v = z
    · exact absurd (hvz ▸ Meets.hit) hnm
    · exact .bound (by rw [findT_insert_ne z v t θ hvz]; exact hf)
        (ih fun hm => hnm (Meets.follow hf hm))
  | op hsub ih =>
    intro hnm
    exact .op (ih fun c hc hm => hnm (Meets.child hc hm))
  | nil => exact .nil
  | cons hj hl ihj ihl =>
    rename_i hnm
    exact .cons (ihj fun hm => hnm _ (by simp) hm)
      (ihl fun c hc hm => hnm c (by simp [hc]) hm)

theorem tot_insert {θ : UnificationTable} {z : String} {t : Judgement}
    (ht : Tot θ) (htt : ∃ rt, AppD (insertT z t θ) t rt) : Tot (insertT z t θ) := by
  obtain ⟨rt, hrt⟩ := htt
  intro j
  obtain ⟨r, hd⟩ := ht j
  clear ht
  induction hd using AppD.rec
    (motive_2 := fun js rs _ => ∃ rs2, AppDL (insertT z t θ) js rs2) with
  | unbound hf =>
    rename_i v
    by_cases hvz : v = z
    · refine ⟨rt, ?_⟩
      rw [hvz]
      exact .bound (findT_insert_self z t θ) hrt
    · exact ⟨_, .unbound (by rw [findT_insert_ne z v t θ hvz, hf])⟩
  | bound hf hsub ih =>
    rename_i v s rj
    by_cases hvz : v = z
    · refine ⟨rt, ?_⟩
      rw [hvz]
      exact .bound (findT_insert_self z t θ) hrt
    · obtain ⟨r2, hd2⟩ := ih
      exact ⟨r2, .bound (by rw [findT_insert_ne z v t θ hvz]; exact hf) hd2⟩
  | op hsub ih =>
    obtain ⟨rs2, hl2⟩ := ih
    exact ⟨_, .op hl2⟩
  | nil => exact ⟨[], .nil⟩
  | cons hj hl ihj ihl =>
    obtain ⟨r2, h1⟩ := ihj
    obtain ⟨rs2, h2⟩ := ihl
    exact ⟨r2 :: rs2, .cons h1 h2⟩

theorem trans_insert_fresh {θ : UnificationTable} {z : String} {t : Judgement}
    (hz : findT θ z = none) :
    ∀ {j r}, AppD θ j r → ∀ r2, AppD (insertT z t θ) r r2 →
      AppD (insertT z t θ) j r2 := by
  intro j r hd
  induction hd using AppD.rec
    (motive_2 := fun js rs _ => ∀ rs2, AppDL (insertT z t θ) rs rs2 →
      AppDL (insertT z t θ) js rs2) with
  | unbound hf =>
    intro r2 hd2
    exact hd2
  | bound hf hsub ih =>
    rename_i v s rj
    intro r2 hd2
    have hvz : v ≠ z := fun he => by rw [he, hz] at hf; cases hf
    exact .bound (by rw [findT_insert_ne z v t θ hvz]; exact hf) (ih r2 hd2)
  | op hsub ih =>
    intro r2 hd2
    cases hd2 with
    | op hl2 => exact .op (ih _ hl2)
  | nil =>
    rename_i rs2 hd2
    cases hd2
    exact .nil
  | cons hj hl ihj ihl =>
    rename_i rs2 hd2
    cases hd2 with
    | cons h1 h2 => exact .cons (ihj _ h1) (ihl _ h2)

theorem trans_insert_ovr {θ₁ : UnificationTable} {z : String} {t : Judgement}
    (heq : EqS θ₁ t (.Variable z)) :
    ∀ {j r2}, AppD (insertT z t θ₁) j r2 → ∀ r, AppD θ₁ j r →
      AppD (insertT z t θ₁) r r2 := by
  intro j r2 hd
  induction hd using AppD.rec
    (motive_2 := fun js rs2 _ => ∀ rs, AppDL θ₁ js rs →
      AppDL (insertT z t θ₁) rs rs2) with
  | unbound hf =>
    rename_i v
    intro r hd1
    have hvz : v ≠ z := fun he => by
      rw [he, findT_insert_self z t θ₁] at hf; cases hf
    rw [findT_insert_ne z v t θ₁ hvz] at hf
    cases hd1 with
    | unbound hf1 => exact .unbound (by rw [findT_insert_ne z v t θ₁ hvz]; exact hf)
    | bound hf1 hd2 => rw [hf] at hf1; cases hf1
  | bound hf hsub ih =>
    rename_i v s rj
    intro r hd1
    by_cases hvz : v = z
    · rw [hvz, findT_insert_self z t θ₁] at hf
      cases hf
      obtain ⟨m, dmt, dmz⟩ := heq
      rw [appD_det hd1 (hvz ▸ dmz)]
      exact ih m dmt
    · rw [findT_insert_ne z v t θ₁ hvz] at hf
      cases hd1 with
      | unbound hf1 => rw [hf] at hf1; cases hf1
      | bound hf1 hd2 =>
        rw [hf] at hf1
        cases hf1
        exact ih r hd2
  | op hsub ih =>
    intro r hd1
    cases hd1 with
    | op hl1 => exact .op (ih _ hl1)
  | nil =>
    rename_i rs hd1
    cases hd1
    exact .nil
  | cons hj hl ihj ihl =>
    rename_i rs hd1
    cases hd1 with
    | cons h1 h2 => exact .cons (ihj _ h1) (ihl _ h2)

theorem varFlow_last : ∀ {n θ j s θ'},
    varFlow n θ j s = some (.ok θ') → findT θ' s = some j := by
  intro n θ j s θ' h
  match n with
  | 0 => simp [varFlow] at h
  | n + 1 =>
    simp only [varFlow] at h
    cases hf : findT θ s with
    | some sv =>
      simp only [hf] at h
      cases hu : unifyS n θ j sv with
      | none => simp only [hu] at h; simp at h
      | some res =>
        simp only [hu] at h
        cases res with
        | error e => simp at h
        | ok θ₁ =>
          cases ho : occursS n θ₁ s j with
          | none => simp only [ho] at h; simp at h
          | some b =>
            simp only [ho] at h
            cases b with
            | true => simp at h
            | false =>
              simp only [Option.some.injEq, Except.ok.injEq] at h
              rw [← h]
              exact findT_insert_self s j θ₁
    | none =>
      simp only [hf] at h
      cases ho : occursS n θ s j with
      | none => simp only [ho] at h; simp at h
      | some b =>
        simp only [ho] at h
        cases b with
        | true => simp at h
        | false =>
          simp only [Option.some.injEq, Except.ok.injEq] at h
          rw [← h]
          exact findT_insert_self s j θ

/-! #### The shape of variable-variable unification runs -/

theorem vv_shape : ∀ n : Nat, ∀ {θ : UnificationTable} {u w : String}
    {θ' : UnificationTable}, u ≠ w →
    unifyS n θ (.Variable u) (.Variable w) = some (.ok θ') →
    (∃ p ss, findT θ' u = some (.Operator p ss)) ∨
    ((∀ v, findT θ' v = findT θ v ∨ findT θ' v = some (.Variable u)) ∧
      ((∃ e l, VChain θ w l e ∧ findT θ e = none ∧
        ∃ m, occursS m θ e (.Variable u) = some false) ∨
       (∃ l, VChain θ w l u))) := by
  intro n
  induction n using Nat.strongRecOn with
  | ind n ih =>
  intro θ u w θ' huw h
  match n with
  | 0 => simp [unifyS] at h
  | n + 1 =>
    simp only [unifyS, if_neg huw] at h
    match n with
    | 0 => simp [varFlow] at h
    | n + 1 =>
      simp only [varFlow] at h
      cases hf : findT θ w with
      | none =>
        simp only [hf] at h
        cases ho : occursS n θ w (.Variable u) with
        | none => simp only [ho] at h; simp at h
        | some b =>
          simp only [ho] at h
          cases b with
          | true => simp at h
          | false =>
            simp only [Option.some.injEq, Except.ok.injEq] at h
            subst h
            refine .inr ⟨?_, .inl ⟨w, [], rfl, hf, n, ho⟩⟩
            intro v
            by_cases hvw : v = w
            · rw [hvw, findT_insert_self]
              exact .inr rfl
            · rw [findT_insert_ne w v _ θ hvw]
              exact .inl rfl
      | some sv =>
        simp only [hf] at h
        cases hu : unifyS n θ (.Variable u) sv with
        | none => simp only [hu] at h; simp at h
        | some res =>
          simp only [hu] at h
          cases res with
          | error e => simp at h
          | ok θ₁ =>
            cases ho : occursS n θ₁ w (.Variable u) with
            | none => simp only [ho] at h; simp at h
            | some b =>
              simp only [ho] at h
              cases b with
              | true => simp at h
              | false =>
                simp only [Option.some.injEq, Except.ok.injEq] at h
                subst h
                match sv with
                | .Operator q ts =>
                  left
                  match n, hu with
                  | 0, hu => simp [unifyS, varFlow] at hu
                  | n + 1, hu =>
                    simp only [unifyS] at hu
                    have hlast := varFlow_last hu
                    exact ⟨q, ts, by
                      rw [findT_insert_ne w u _ θ₁ huw]; exact hlast⟩
                | .Variable y =>
                  by_cases hyu : y = u
                  · subst hyu
                    have hθ₁ : θ₁ = θ := by
                      match n, hu with
                      | 0, hu => simp [unifyS] at hu
                      | n + 1, hu =>
                        simp only [unifyS, if_pos rfl, if_true, Option.some.injEq,
                          Except.ok.injEq] at hu
                        exact hu.symm
                    subst hθ₁
                    refine .inr ⟨?_, .inr ⟨[y], hf, rfl⟩⟩
                    intro v
                    by_cases hvw : v = w
                    · rw [hvw, findT_insert_self]
                      exact .inr rfl
                    · rw [findT_insert_ne w v _ θ₁ hvw]
                      exact .inl rfl
                  · have hvv := ih n (by omega) (fun he => hyu he.symm) hu
                    rcases hvv with ⟨p, ss, hop⟩ | ⟨hdisj, hrest⟩
                    · exact .inl ⟨p, ss, by
                        rw [findT_insert_ne w u _ θ₁ huw]; exact hop⟩
                    · refine .inr ⟨?_, ?_⟩
                      · intro v
                        by_cases hvw : v = w
                        · rw [hvw, findT_insert_self]
                          exact .inr rfl
                        · rw [findT_insert_ne w v _ θ₁ hvw]
                          exact hdisj v
                      · rcases hrest with ⟨e, l, hchain, he, m, hocc⟩ | ⟨l, hchain⟩
                        · exact .inl ⟨e, y :: l, ⟨hf, hchain⟩, he, m, hocc⟩
                        · exact .inr ⟨y :: l, hf, hchain⟩

/-! #### The override insert never walks back to the overridden symbol -/

theorem chain_nonempty_link {θ : UnificationTable} {u s : String} {l : List String}
    (hc : VChain θ u l s) (hus : u ≠ s) :
    ∃ v vs, l = v :: vs ∧ findT θ u = some (.Variable v) ∧ VChain θ v vs s := by
  match l, hc with
  | [], hc => exact absurd hc hus
  | v :: vs, ⟨hlink, htail⟩ => exact ⟨v, vs, rfl, hlink, htail⟩

theorem no_meets_override {n : Nat} {θ θ₁ : UnificationTable} {j : Judgement}
    {s : String} {sv : Judgement}
    (htot : Tot θ)
    (hf : findT θ s = some sv)
    (hu : unifyS n θ j sv = some (.ok θ₁))
    (heq : EqS θ₁ j (.Variable s))
    (hjs : j ≠ .Variable s) :
    ¬ Meets θ₁ s j := by
  intro hm
  obtain ⟨r₀, dj, ds⟩ := heq
  rcases meets_sub hm dj ds with hsz | ⟨u, l, rfl, hchain⟩
  · omega
  · have hus : u ≠ s := fun he => hjs (by rw [he])
    match sv with
    | .Operator q ts =>
      have hlast : findT θ₁ u = some (.Operator q ts) := by
        match n, hu with
        | 0, hu => simp [unifyS] at hu
        | n + 1, hu =>
          simp only [unifyS] at hu
          exact varFlow_last hu
      obtain ⟨v, vs, -, hlink, -⟩ := chain_nonempty_link hchain hus
      rw [hlast] at hlink
      cases hlink
    | .Variable y =>
      by_cases hyu : y = u
      · rw [hyu] at hf hu
        have hθ₁ : θ₁ = θ := by
          match n, hu with
          | 0, hu => simp [unifyS] at hu
          | n + 1, hu =>
            simp only [unifyS, if_pos rfl, if_true, Option.some.injEq,
              Except.ok.injEq] at hu
            exact hu.symm
        subst hθ₁
        have hmem := chain_members hchain
        obtain ⟨r, hr⟩ := htot (.Variable u)
        refine cycset_no_appD θ₁ (u :: l) ?_ hr u (by simp) rfl
        intro v hv
        rcases hmem v hv with rfl | ⟨v', hv', hfv⟩
        · exact ⟨u, by simp, hf⟩
        · exact ⟨v', hv', hfv⟩
      · rcases vv_shape n (fun he => hyu he.symm) hu with
          ⟨p, ss, hop⟩ | ⟨hdisj, hrest⟩
        · obtain ⟨v, vs, -, hlink, -⟩ := chain_nonempty_link hchain hus
          rw [hop] at hlink
          cases hlink
        · have hred := chain_reduce hdisj l u s hchain
          have hθchain : ∃ l', VChain θ u l' s := by
            rcases hred with h1 | h1
            · exact h1
            · exact h1
          obtain ⟨l', hl'⟩ := hθchain
          rcases hrest with ⟨e, l₂, hchy, he, m, hocc⟩ | ⟨l₂, hchy⟩
          · have hext : VChain θ u (l' ++ y :: l₂) e :=
              chain_compose hl' ⟨hf, hchy⟩
            have := chain_occurs hext he m false hocc
            simp at this
          · obtain ⟨r, hr⟩ := htot (.Variable u)
            have hm1 := chain_members hl'
            have hm2 := chain_members hchy
            refine cycset_no_appD θ ((u :: l') ++ (y :: l₂)) ?_ hr u (by simp) rfl
            intro v hv
            rcases List.mem_append.1 hv with hv1 | hv2
            · rcases hm1 v hv1 with rfl | ⟨v', hv', hfv⟩
              · exact ⟨y, by simp, hf⟩
              · exact ⟨v', List.mem_append.2 (.inl hv'), hfv⟩
            · rcases hm2 v hv2 with rfl | ⟨v', hv', hfv⟩
              · rcases hm1 v (by simp) with rfl | ⟨v', hv', hfv⟩
                · exact ⟨y, by simp, hf⟩
                · exact ⟨v', List.mem_append.2 (.inl hv'), hfv⟩
              · exact ⟨v', List.mem_append.2 (.inr hv'), hfv⟩

/-! #### The main invariant of the unifier -/

theorem eqS_var_bound {θ : UnificationTable} {s : String} {j : Judgement}
    (htot : Tot θ) (hf : findT θ s = some j) : EqS θ (.Variable s) j := by
  obtain ⟨r, hr⟩ := htot j
  exact ⟨r, .bound hf hr, hr⟩

theorem eqS_pres_fresh {θ : UnificationTable} {z : String} {t : Judgement}
    (hz : findT θ z = none) (htot₂ : Tot (insertT z t θ)) :
    ∀ {c d}, EqS θ c d → EqS (insertT z t θ) c d := by
  intro c d ⟨r, dc, dd⟩
  obtain ⟨r', dr'⟩ := htot₂ r
  exact ⟨r', trans_insert_fresh hz dc r' dr', trans_insert_fresh hz dd r' dr'⟩

theorem eqS_pres_ovr {θ₁ : UnificationTable} {z : String} {t : Judgement}
    (heq : EqS θ₁ t (.Variable z)) (htot₂ : Tot (insertT z t θ₁)) :
    ∀ {c d}, EqS θ₁ c d → EqS (insertT z t θ₁) c d := by
  intro c d ⟨r, dc, dd⟩
  obtain ⟨rc, d2c⟩ := htot₂ c
  obtain ⟨rd, d2d⟩ := htot₂ d
  have h1 := trans_insert_ovr heq d2c r dc
  have h2 := trans_insert_ovr heq d2d r dd
  rw [appD_det h2 h1] at d2d
  exact ⟨rc, d2c, d2d⟩

theorem eqS_zip_op {θ : UnificationTable} :
    ∀ {ss ts : List Judgement}, ss.length = ts.length →
      (∀ pr ∈ ss.zip ts, EqS θ pr.1 pr.2) →
      ∃ rs, AppDL θ ss rs ∧ AppDL θ ts rs := by
  intro ss
  induction ss with
  | nil =>
    intro ts hl _
    match ts, hl with
    | [], _ => exact ⟨[], .nil, .nil⟩
  | cons a as ih =>
    intro ts hl hp
    match ts, hl with
    | b :: bs, hl =>
      obtain ⟨r, da, db⟩ := hp (a, b) (by simp)
      obtain ⟨rs, dl1, dl2⟩ := ih (by simpa using hl) (fun pr hpr => hp pr (by simp [hpr]))
      exact ⟨r :: rs, .cons da dl1, .cons db dl2⟩

theorem unify_invariant : ∀ n : Nat,
    (∀ {θ : UnificationTable} {a b : Judgement} {θ' : UnificationTable},
      Tot θ → unifyS n θ a b = some (.ok θ') →
      Tot θ' ∧ (∀ c d, EqS θ c d → EqS θ' c d) ∧ EqS θ' a b) ∧
    (∀ {θ : UnificationTable} {j : Judgement} {s : String} {θ' : UnificationTable},
      Tot θ → j ≠ .Variable s → varFlow n θ j s = some (.ok θ') →
      Tot θ' ∧ (∀ c d, EqS θ c d → EqS θ' c d) ∧ EqS θ' (.Variable s) j) ∧
    (∀ {θ : UnificationTable} {ps : List (Judgement × Judgement)}
        {θ' : UnificationTable},
      Tot θ → unifyL n θ ps = some (.ok θ') →
      Tot θ' ∧ (∀ c d, EqS θ c d → EqS θ' c d) ∧
        ∀ pr ∈ ps, EqS θ' pr.1 pr.2) := by
  intro n
  induction n with
  | zero =>
    refine ⟨?_, ?_, ?_⟩
    · intro θ a b θ' _ h; simp [unifyS] at h
    · intro θ j s θ' _ _ h; simp [varFlow] at h
    · intro θ ps θ' _ h; simp [unifyL] at h
  | succ n ih =>
    obtain ⟨ihU, ihV, ihL⟩ := ih
    refine ⟨?_, ?_, ?_⟩
    · -- unifyS
      intro θ a b θ' htot h
      match a, b with
      | .Variable x, .Variable y =>
        simp only [unifyS] at h
        by_cases hxy : x = y
        · rw [if_pos hxy] at h
          simp only [Option.some.injEq, Except.ok.injEq] at h
          subst h
          exact ⟨htot, fun c d hcd => hcd, hxy ▸ eqS_refl htot (.Variable x)⟩
        · rw [if_neg hxy] at h
          have hne : (.Variable x : Judgement) ≠ .Variable y := by
            intro he; cases he; exact hxy rfl
          obtain ⟨h1, h2, h3⟩ := ihV htot hne h
          exact ⟨h1, h2, eqS_symm h3⟩
      | .Operator p ss, .Variable y =>
        simp only [unifyS] at h
        have hne : (.Operator p ss : Judgement) ≠ .Variable y := by
          intro he; cases he
        obtain ⟨h1, h2, h3⟩ := ihV htot hne h
        exact ⟨h1, h2, eqS_symm h3⟩
      | .Variable x, .Operator q ts =>
        simp only [unifyS] at h
        have hne : (.Operator q ts : Judgement) ≠ .Variable x := by
          intro he; cases he
        exact ihV htot hne h
      | .Operator p ss, .Operator q ts =>
        simp only [unifyS] at h
        by_cases hpq : p ≠ q
        · rw [if_pos hpq] at h; simp at h
        · rw [if_neg hpq] at h
          push_neg at hpq
          subst hpq
          by_cases hlen : ss.length ≠ ts.length
          · rw [if_pos hlen] at h; simp at h
          · rw [if_neg hlen] at h
            push_neg at hlen
            obtain ⟨h1, h2, h3⟩ := ihL htot h
            obtain ⟨rs, dl1, dl2⟩ := eqS_zip_op hlen h3
            exact ⟨h1, h2, ⟨.Operator p rs, .op dl1, .op dl2⟩⟩
    · -- varFlow
      intro θ j s θ' htot hjs h
      simp only [varFlow] at h
      cases hf : findT θ s with
      | none =>
        simp only [hf] at h
        cases ho : occursS n θ s j with
        | none => simp only [ho] at h; simp at h
        | some b =>
          simp only [ho] at h
          cases b with
          | true => simp at h
          | false =>
            simp only [Option.some.injEq, Except.ok.injEq] at h
            subst h
            have hnm : ¬ Meets θ s j := fun hm => by
              have := meets_unbound_occurs hf hm n false ho
              simp at this
            obtain ⟨rj, drj⟩ := htot j
            have hins : AppD (insertT s j θ) j rj := avoid_insert drj hnm
            have htot' : Tot (insertT s j θ) := tot_insert htot ⟨rj, hins⟩
            refine ⟨htot', fun c d hcd => eqS_pres_fresh hf htot' hcd, ?_⟩
            exact ⟨rj, .bound (findT_insert_self s j θ) hins, hins⟩
      | some sv =>
        simp only [hf] at h
        cases hu : unifyS n θ j sv with
        | none => simp only [hu] at h; simp at h
        | some res =>
          simp only [hu] at h
          cases res with
          | error e => simp at h
          | ok θ₁ =>
            cases ho : occursS n θ₁ s j with
            | none => simp only [ho] at h; simp at h
            | some b =>
              simp only [ho] at h
              cases b with
              | true => simp at h
              | false =>
                simp only [Option.some.injEq, Except.ok.injEq] at h
                subst h
                obtain ⟨htot₁, hpres₁, heq₁⟩ := ihU htot hu
                have heqs : EqS θ₁ j (.Variable s) :=
                  eqS_trans heq₁ (eqS_symm (hpres₁ _ _ (eqS_var_bound htot hf)))
                have hnm : ¬ Meets θ₁ s j :=
                  no_meets_override htot hf hu heqs hjs
                obtain ⟨rj, drj⟩ := htot₁ j
                have hins : AppD (insertT s j θ₁) j rj := avoid_insert drj hnm
                have htot' : Tot (insertT s j θ₁) := tot_insert htot₁ ⟨rj, hins⟩
                refine ⟨htot', ?_, ?_⟩
                · intro c d hcd
                  exact eqS_pres_ovr heqs htot' (hpres₁ c d hcd)
                · exact ⟨rj, .bound (findT_insert_self s j θ₁) hins, hins⟩
    · -- unifyL
      intro θ ps θ' htot h
      match ps with
      | [] =>
        simp only [unifyL, Option.some.injEq, Except.ok.injEq] at h
        subst h
        exact ⟨htot, fun c d hcd => hcd, by simp⟩
      | (a, b) :: rest =>
        simp only [unifyL] at h
        cases hu : unifyS n θ a b with
        | none => simp only [hu] at h; simp at h
        | some res =>
          simp only [hu] at h
          cases res with
          | error e => simp at h
          | ok θ₁ =>
            obtain ⟨htot₁, hpres₁, heq₁⟩ := ihU htot hu
            obtain ⟨htot', hpres', hrest⟩ := ihL htot₁ h
            refine ⟨htot', fun c d hcd => hpres' c d (hpres₁ c d hcd), ?_⟩
            intro pr hpr
            rcases List.mem_cons.1 hpr with rfl | hpr2
            · exact hpres' _ _ heq₁
            · exact hrest pr hpr2

theorem tot_empty : Tot ([] : UnificationTable) := by
  intro j
  refine ⟨j, ?_⟩
  induction j using Judgement.rec (motive_2 := fun js => AppDL [] js js) with
  | Variable v => exact .unbound rfl
  | Operator p ss ih => exact .op ih
  | nil => exact .nil
  | cons j js ihj ihl => exact .cons ihj ihl

/-- C1: if `unify` succeeds with table θ, applying θ to either input
judgement terminates and yields the same judgement. -/
theorem unify_sound (n : Nat) (a b : Judgement) (θ : UnificationTable)
    (h : unifyJ n a b = some (.ok θ)) :
    ∃ r, (∃ m, applyS m θ a = some r) ∧ (∃ m, applyS m θ b = some r) := by
  obtain ⟨-, -, heq⟩ := (unify_invariant n).1 tot_empty h
  obtain ⟨r, da, db⟩ := heq
  exact ⟨r, applyS_of_appD da, applyS_of_appD db⟩

/-- Witness for C1 at the pair (x, y). -/
theorem unify_sound_witness :
    unifyJ 9 (Judgement.Variable "x") (Judgement.Variable "y") =
      some (.ok [("y", Judgement.Variable "x")]) ∧
    ∃ r, (∃ m, applyS m [("y", Judgement.Variable "x")]
        (Judgement.Variable "x") = some r) ∧
      (∃ m, applyS m [("y", Judgement.Variable "x")]
        (Judgement.Variable "y") = some r) :=
  ⟨rfl, unify_sound 9 _ _ _ rfl⟩
